/-
  Verification development for the FOOD_DELIVERY dispatch system
  (src/food_delivery.cpp).

  Shallow embedding conventions:
  * `std::map<K,V>` is modelled as an association list sorted strictly by key
    (`minsert` keeps the sorted order, mirroring ordered-map iteration).
  * `map::operator[]`, which default-inserts when the key is absent, is
    modelled by `getOrIns`; `map::count`/`map::find` guards become `mlookup`
    tests, exactly where the C++ places them.
  * `std::priority_queue<pair<int,string>, ..., greater<...>>` is modelled as
    a list kept sorted in ascending lexicographic pair order (`pqPush`);
    popping the top is taking the head.
  * C++ `int` is modelled as `Int` with the explicit sentinel
    `INT_MAX = 2147483647` (the code guards all additions with
    `!= INT_MAX` comparisons; theorems about weighted sums assume
    non-negative weights, the route domain documented by the system).
  * The C++ `while` loops are modelled with an explicit fuel argument; the
    fuel chosen is proved sufficient for the loop to drain its work list in
    the situations the theorems speak about.
  * `Order.price` is a C++ `double` that is only ever stored and copied,
    never used in arithmetic, so it is modelled as `Int`.
-/
import Mathlib

/-! ### Kernel-reducible decision procedures for the string order

`String.decidableLT` is defined through byte iterators and does not reduce
inside the kernel, so concrete runs of the system could not be evaluated by
`decide`.  The instances below decide the same linear order through the
character lists. -/

def charListLtb : List Char → List Char → Bool
  | _, [] => false
  | [], _ :: _ => true
  | c :: cs, d :: ds =>
    if c < d then true
    else if d < c then false
    else charListLtb cs ds

def strLtb (a b : String) : Bool := charListLtb a.data b.data

theorem charListLtb_iff (cs : List Char) : ∀ ds,
    charListLtb cs ds = true ↔ List.Lex (· < ·) cs ds := by
  induction cs with
  | nil =>
    intro ds
    cases ds with
    | nil => simp [charListLtb]
    | cons d ds => simpa [charListLtb] using List.Lex.nil
  | cons c cs ih =>
    intro ds
    cases ds with
    | nil => simp [charListLtb]
    | cons d ds =>
      by_cases h1 : c < d
      · rw [charListLtb, if_pos h1]
        exact iff_of_true rfl (List.Lex.rel h1)
      · by_cases h2 : d < c
        · rw [charListLtb, if_neg h1, if_pos h2]
          refine iff_of_false (by simp) ?_
          intro hl
          cases hl with
          | cons h => exact absurd h2 (lt_irrefl _)
          | rel h => exact absurd h h1
        · have hcd : c = d := le_antisymm (not_lt.mp h2) (not_lt.mp h1)
          subst hcd
          rw [charListLtb, if_neg h1, if_neg h2, List.Lex.cons_iff]
          exact ih ds

theorem strLtb_iff (a b : String) : strLtb a b = true ↔ a < b := by
  rw [String.lt_iff_toList_lt]
  exact charListLtb_iff a.data b.data

instance (priority := 2000) strDecLt : DecidableRel ((· < ·) : String → String → Prop) :=
  fun a b => decidable_of_iff (strLtb a b = true) (strLtb_iff a b)

instance (priority := 2000) strDecLe : DecidableRel ((· ≤ ·) : String → String → Prop) :=
  fun a b => decidable_of_iff (¬ b < a) not_lt

/-! ### Ordered-map model (std::map as sorted association list) -/

def INT_MAX : Int := 2147483647

def mlookup {κ α : Type} [DecidableEq κ] : List (κ × α) → κ → Option α
  | [], _ => none
  | e :: rest, k => if k = e.1 then some e.2 else mlookup rest k

def minsert {κ α : Type} [LinearOrder κ] [DecidableRel ((· < ·) : κ → κ → Prop)]
    [DecidableEq κ] (k : κ) (v : α) : List (κ × α) → List (κ × α)
  | [] => [(k, v)]
  | e :: rest =>
    if k < e.1 then (k, v) :: e :: rest
    else if k = e.1 then (k, v) :: rest
    else e :: minsert k v rest

/-- `map::operator[]`: default-inserts when absent, returns the stored value. -/
def getOrIns {κ α : Type} [LinearOrder κ] [DecidableRel ((· < ·) : κ → κ → Prop)]
    [DecidableEq κ] (m : List (κ × α)) (k : κ) (d : α) :
    α × List (κ × α) :=
  match mlookup m k with
  | some v => (v, m)
  | none => (d, minsert k d m)

/-- Structural well-formedness of an ordered map: keys strictly ascending. -/
def MSorted {κ α : Type} [LinearOrder κ] (m : List (κ × α)) : Prop :=
  List.Pairwise (fun a b => a.1 < b.1) m

instance {κ α : Type} [LinearOrder κ] [DecidableRel ((· < ·) : κ → κ → Prop)]
    (m : List (κ × α)) : Decidable (MSorted m) := by
  unfold MSorted; infer_instance

/-! ### Min-priority queue of (distance, name) pairs -/

def pqLe (x y : Int × String) : Prop :=
  x.1 < y.1 ∨ (x.1 = y.1 ∧ x.2 ≤ y.2)

instance : DecidableRel pqLe := fun x y =>
  inferInstanceAs (Decidable (x.1 < y.1 ∨ (x.1 = y.1 ∧ x.2 ≤ y.2)))

def pqPush (e : Int × String) : List (Int × String) → List (Int × String)
  | [] => [e]
  | h :: t => if pqLe e h then e :: h :: t else h :: pqPush e t

/-! ### Data model -/

structure Order where
  id : Int
  restaurant : String
  destination : String
  price : Int
deriving DecidableEq, Repr

abbrev Row := List (String × Int)

abbrev Graph := List (String × Row)

/-- The weight of the directed adjacency entry `u -> v`, if present. -/
def adjW (g : Graph) (u v : String) : Option Int :=
  match mlookup g u with
  | none => none
  | some row => mlookup row v

structure SysState where
  incomingOrders : List Order
  completedOrders : List Order
  deliveryGraph : Graph
  allOrders : List (Int × Order)
  nextOrderId : Int
deriving DecidableEq, Repr

def initState : SysState := ⟨[], [], [], [], 1001⟩

/-! ### FoodDeliverySystem operations -/

/-- Feature 1 (`addLocation`); `true` = added, `false` = already exists. -/
def addLocation (s : SysState) (name : String) : SysState × Bool :=
  match mlookup s.deliveryGraph name with
  | none => ({ s with deliveryGraph := minsert name [] s.deliveryGraph }, true)
  | some _ => (s, false)

/-- Feature 2 (`addRoute`); `false` = a location is missing, no mutation. -/
def addRoute (s : SysState) (start_ end_ : String) (distance : Int) : SysState × Bool :=
  if (mlookup s.deliveryGraph start_).isSome && (mlookup s.deliveryGraph end_).isSome then
    let (rowS, g1) := getOrIns s.deliveryGraph start_ []
    let g2 := minsert start_ (minsert end_ distance rowS) g1
    let (rowE, g3) := getOrIns g2 end_ []
    let g4 := minsert end_ (minsert start_ distance rowE) g3
    ({ s with deliveryGraph := g4 }, true)
  else (s, false)

/-- Feature 3 (`placeOrder`); returns the assigned id on success. -/
def placeOrder (s : SysState) (restaurant destination : String) (price : Int) :
    SysState × Option Int :=
  if (mlookup s.deliveryGraph restaurant).isSome &&
      (mlookup s.deliveryGraph destination).isSome then
    let newOrder : Order := ⟨s.nextOrderId, restaurant, destination, price⟩
    ({ s with nextOrderId := s.nextOrderId + 1,
              incomingOrders := s.incomingOrders ++ [newOrder],
              allOrders := minsert newOrder.id newOrder s.allOrders },
      some newOrder.id)
  else (s, none)

/-- Feature 4 (`processNextOrder`): queue front moves to the completed stack. -/
def processNextOrder (s : SysState) : SysState × Option Order :=
  match s.incomingOrders with
  | [] => (s, none)
  | o :: rest =>
    ({ s with incomingOrders := rest, completedOrders := o :: s.completedOrders }, some o)

/-- Feature 5 (`trackLastDelivery`): stack peek, no mutation. -/
def trackLastDelivery (s : SysState) : Option Order :=
  s.completedOrders.head?

/-- Feature 6 (`listPendingOrders`): snapshot of the queue, front first. -/
def listPendingOrders (s : SysState) : List Order :=
  s.incomingOrders

/-- Feature 8 (`revertLastDelivery`): stack top moves to the back of the queue. -/
def revertLastDelivery (s : SysState) : SysState × Option Order :=
  match s.completedOrders with
  | [] => (s, none)
  | o :: rest =>
    ({ s with completedOrders := rest, incomingOrders := s.incomingOrders ++ [o] }, some o)

/-! ### Dijkstra (`findShortestPath`) -/

structure DState where
  g : Graph
  dist : List (String × Int)
  preds : List (String × String)
  visited : List String
  pq : List (Int × String)
deriving Repr

/-- One relaxation step of the neighbour loop; `distances[...]` reads are
`operator[]` reads and therefore `getOrIns`. -/
def relaxNeighbor (current : String) (st : DState) (edge : String × Int) : DState :=
  let neighbor := edge.1
  let weight := edge.2
  let (dcur, dist1) := getOrIns st.dist current 0
  if dcur ≠ INT_MAX then
    let (dnbr, dist2) := getOrIns dist1 neighbor 0
    if dcur + weight < dnbr then
      { st with dist := minsert neighbor (dcur + weight) dist2,
                preds := minsert neighbor current st.preds,
                pq := pqPush (dcur + weight, neighbor) st.pq }
    else { st with dist := dist2 }
  else { st with dist := dist1 }

/-- The main `while (!pq.empty())` loop, fuelled. -/
def dijkstraLoop : Nat → DState → DState
  | 0, st => st
  | fuel + 1, st =>
    match st.pq with
    | [] => st
    | (_, current) :: pqRest =>
      if current ∈ st.visited then dijkstraLoop fuel { st with pq := pqRest }
      else
        let st1 : DState :=
          { st with visited := current :: st.visited, pq := pqRest }
        if (mlookup st1.g current).isSome then
          let (adj, g1) := getOrIns st1.g current []
          dijkstraLoop fuel (adj.foldl (relaxNeighbor current) { st1 with g := g1 })
        else dijkstraLoop fuel st1

/-- `for (const auto& pair : deliveryGraph) distances[pair.first] = INT_MAX;` -/
def initDist (g : Graph) : List (String × Int) :=
  g.foldl (fun d e => minsert e.1 INT_MAX d) []

/-- Total number of adjacency entries; a bound on the relaxation pushes. -/
def totalAdj (g : Graph) : Nat :=
  (g.map (fun e => e.2.length)).sum

/-- The reconstruction `while (predecessors.count(current))` loop, fuelled. -/
def reconLoop (preds : List (String × String)) (start_ : String) :
    Nat → String → List String → List String
  | 0, _, path => path
  | fuel + 1, current, path =>
    match mlookup preds current with
    | none => path
    | some p =>
      let path1 := path ++ [current]
      if p = start_ then path1 ++ [start_]
      else reconLoop preds start_ fuel p path1

/-- `FoodDeliverySystem::findShortestPath`, threading the graph because the
body accesses `deliveryGraph[current]` through `operator[]`. -/
def findShortestPath (g : Graph) (start_ end_ : String) : Graph × List String :=
  let distances := initDist g
  if (mlookup distances start_).isSome then
    let distances1 := minsert start_ 0 distances
    let st := dijkstraLoop (1 + totalAdj g) ⟨g, distances1, [], [], [(0, start_)]⟩
    match mlookup st.dist end_ with
    | none => (st.g, [])
    | some de =>
      if de = INT_MAX then (st.g, [])
      else
        let path := (reconLoop st.preds start_ (st.preds.length + 1) end_ []).reverse
        if path.head? = some start_ then (st.g, path) else (st.g, [])
  else (g, [])

/-- The rvalue read `deliveryGraph[u][v]`: outer and inner `operator[]`,
with any in-place row mutation stored back at `u`. -/
def mapIndex2 (g : Graph) (u v : String) : Int × Graph :=
  let (row, g1) := getOrIns g u []
  match mlookup row v with
  | some w => (w, g1)
  | none => (0, minsert u (minsert v 0 row) g1)

/-- Loop body of `calculatePathDistance`: consecutive pairs, `INT_MAX` on a
missing edge (discarding the sum accumulated so far). -/
def calcLoop (g : Graph) (total : Int) : List String → Graph × Int
  | u :: v :: rest =>
    match mlookup g u with
    | some row =>
      if (mlookup row v).isSome then
        let (w, g2) := mapIndex2 g u v
        calcLoop g2 (total + w) (v :: rest)
      else (g, INT_MAX)
    | none => (g, INT_MAX)
  | _ => (g, total)

/-- `FoodDeliverySystem::calculatePathDistance`. -/
def calculatePathDistance (g : Graph) (path : List String) : Graph × Int :=
  if path.length < 2 then (g, 0) else calcLoop g 0 path

/-- Result of Feature 7, mirroring the printed report: `totalDistance = -1`
is the branch that prints "Cannot be calculated (Missing route)". -/
inductive OptResult where
  | orderNotFound
  | missingDepot
  | routes (path1 : List String) (distance1 : Int)
      (path2 : List String) (distance2 : Int) (totalDistance : Int)
deriving DecidableEq, Repr

/-- Feature 7 (`optimizeDeliveryRoute`). -/
def optimizeDeliveryRoute (s : SysState) (orderId : Int) : SysState × OptResult :=
  if (mlookup s.allOrders orderId).isSome then
    let (order, allOrders1) := getOrIns s.allOrders orderId ⟨0, "", "", 0⟩
    let s1 := { s with allOrders := allOrders1 }
    if (mlookup s1.deliveryGraph "Depot").isSome then
      let (g1, path1) := findShortestPath s1.deliveryGraph "Depot" order.restaurant
      let (g2, distance1) := calculatePathDistance g1 path1
      let (g3, path2) := findShortestPath g2 order.restaurant order.destination
      let (g4, distance2) := calculatePathDistance g3 path2
      let totalDistance :=
        if distance1 = INT_MAX ∨ distance2 = INT_MAX then -1
        else distance1 + distance2
      ({ s1 with deliveryGraph := g4 },
        .routes path1 distance1 path2 distance2 totalDistance)
    else (s1, .missingDepot)
  else (s, .orderNotFound)

/-! ### Command interface (the driver's request/response loop) -/

inductive Op where
  | addLocation (name : String)
  | addRoute (start_ end_ : String) (distance : Int)
  | placeOrder (restaurant destination : String) (price : Int)
  | processNext
  | trackLast
  | listPending
  | optimizeRoute (orderId : Int)
  | revertLast
  | status
deriving DecidableEq, Repr

def step (s : SysState) (op : Op) : SysState :=
  match op with
  | .addLocation n => (addLocation s n).1
  | .addRoute a b d => (addRoute s a b d).1
  | .placeOrder r dst p => (placeOrder s r dst p).1
  | .processNext => (processNextOrder s).1
  | .trackLast => s
  | .listPending => s
  | .optimizeRoute i => (optimizeDeliveryRoute s i).1
  | .revertLast => (revertLastDelivery s).1
  | .status => s

def run (s : SysState) : List Op → SysState
  | [] => s
  | op :: ops => run (step s op) ops

/-- The ids handed out by the successful `placeOrder` calls of a trace. -/
def placedIds (s : SysState) : List Op → List Int
  | [] => []
  | op :: ops =>
    match op with
    | .placeOrder r dst p =>
      match placeOrder s r dst p with
      | (s', some i) => i :: placedIds s' ops
      | (s', none) => placedIds s' ops
    | _ => placedIds (step s op) ops

/-- The number of successful `placeOrder` calls of a trace. -/
def placedCount (s : SysState) : List Op → Nat
  | [] => 0
  | op :: ops =>
    match op with
    | .placeOrder r dst p =>
      match placeOrder s r dst p with
      | (s', some _) => 1 + placedCount s' ops
      | (s', none) => placedCount s' ops
    | _ => placedCount (step s op) ops

/-! ### Basic lemmas for the ordered-map model -/

theorem mlookup_minsert {κ α : Type} [LinearOrder κ]
    [DecidableRel ((· < ·) : κ → κ → Prop)] [DecidableEq κ] (k k' : κ) (v : α)
    (m : List (κ × α)) :
    mlookup (minsert k v m) k' = if k' = k then some v else mlookup m k' := by
  induction m with
  | nil => simp [minsert, mlookup]
  | cons e rest ih =>
    by_cases h1 : k < e.1
    · rw [minsert, if_pos h1]
      simp only [mlookup]
    · by_cases h2 : k = e.1
      · rw [minsert, if_neg h1, if_pos h2]
        by_cases h3 : k' = k
        · simp [mlookup, h3]
        · have h4 : k' ≠ e.1 := fun h => h3 (h2 ▸ h)
          simp [mlookup, h3, h4]
      · rw [minsert, if_neg h1, if_neg h2]
        by_cases h3 : k' = e.1
        · have h4 : k' ≠ k := fun h => h2 (h ▸ h3)
          have h5 : e.1 ≠ k := fun h => h2 h.symm
          simp [mlookup, h3, h4, h5]
        · simp [mlookup, h3, ih]

theorem mlookup_isSome_iff {κ α : Type} [DecidableEq κ] (m : List (κ × α)) (k : κ) :
    (mlookup m k).isSome ↔ k ∈ m.map Prod.fst := by
  induction m with
  | nil => simp [mlookup]
  | cons e rest ih =>
    by_cases h : k = e.1 <;> simp [mlookup, h, ih]

theorem mem_of_mlookup {κ α : Type} [DecidableEq κ] {m : List (κ × α)} {k : κ} {v : α}
    (h : mlookup m k = some v) : (k, v) ∈ m := by
  induction m with
  | nil => simp [mlookup] at h
  | cons e rest ih =>
    by_cases h1 : k = e.1
    · simp only [mlookup, if_pos h1] at h
      cases h
      have he : (k, e.2) = e := by
        cases e
        simpa using h1
      exact he ▸ List.mem_cons_self _ _
    · simp only [mlookup, if_neg h1] at h
      exact List.mem_cons_of_mem _ (ih h)

theorem mlookup_of_mem {κ α : Type} [LinearOrder κ] [DecidableEq κ]
    {m : List (κ × α)} {k : κ} {v : α}
    (hs : MSorted m) (h : (k, v) ∈ m) : mlookup m k = some v := by
  induction m with
  | nil => simp at h
  | cons e rest ih =>
    rcases List.mem_cons.mp h with h1 | h1
    · cases h1
      simp [mlookup]
    · have hne : k ≠ e.1 := by
        have := (List.pairwise_cons.mp hs).1 (k, v) h1
        exact fun hk => absurd (hk ▸ this) (lt_irrefl _)
      simp only [mlookup, if_neg hne]
      exact ih (List.pairwise_cons.mp hs).2 h1

theorem mem_minsert {κ α : Type} [LinearOrder κ]
    [DecidableRel ((· < ·) : κ → κ → Prop)] [DecidableEq κ] {m : List (κ × α)} {k : κ} {v : α}
    {a : κ × α} (h : a ∈ minsert k v m) : a = (k, v) ∨ a ∈ m := by
  induction m with
  | nil => simpa [minsert] using h
  | cons e rest ih =>
    by_cases h1 : k < e.1
    · simp only [minsert, if_pos h1] at h
      rcases List.mem_cons.mp h with h | h
      · exact Or.inl h
      · exact Or.inr h
    · by_cases h2 : k = e.1
      · simp only [minsert, if_neg h1, if_pos h2] at h
        rcases List.mem_cons.mp h with h | h
        · exact Or.inl h
        · exact Or.inr (List.mem_cons_of_mem _ h)
      · simp only [minsert, if_neg h1, if_neg h2] at h
        rcases List.mem_cons.mp h with h | h
        · exact Or.inr (h ▸ List.mem_cons_self _ _)
        · rcases ih h with h | h
          · exact Or.inl h
          · exact Or.inr (List.mem_cons_of_mem _ h)

theorem minsert_msorted {κ α : Type} [LinearOrder κ]
    [DecidableRel ((· < ·) : κ → κ → Prop)] [DecidableEq κ] {m : List (κ × α)} (k : κ) (v : α)
    (hs : MSorted m) : MSorted (minsert k v m) := by
  induction m with
  | nil => simp [minsert, MSorted]
  | cons e rest ih =>
    rcases List.pairwise_cons.mp hs with ⟨he, hrest⟩
    by_cases h1 : k < e.1
    · simp only [minsert, if_pos h1]
      refine List.pairwise_cons.mpr ⟨?_, hs⟩
      intro b hb
      rcases List.mem_cons.mp hb with h | h
      · exact h ▸ h1
      · exact lt_trans h1 (he b h)
    · by_cases h2 : k = e.1
      · simp only [minsert, if_neg h1, if_pos h2]
        exact List.pairwise_cons.mpr ⟨fun b hb => h2 ▸ he b hb, hrest⟩
      · simp only [minsert, if_neg h1, if_neg h2]
        refine List.pairwise_cons.mpr ⟨?_, ih hrest⟩
        intro b hb
        have hek : e.1 < k := lt_of_le_of_ne (not_lt.mp h1) (fun h => h2 h.symm)
        rcases mem_minsert hb with h | h
        · exact h ▸ hek
        · exact he b h

theorem getOrIns_of_eq_some {κ α : Type} [LinearOrder κ]
    [DecidableRel ((· < ·) : κ → κ → Prop)] [DecidableEq κ] {m : List (κ × α)} {k : κ}
    {v : α} (d : α) (h : mlookup m k = some v) : getOrIns m k d = (v, m) := by
  simp [getOrIns, h]

theorem getOrIns_snd_of_isSome {κ α : Type} [LinearOrder κ]
    [DecidableRel ((· < ·) : κ → κ → Prop)] [DecidableEq κ] {m : List (κ × α)} {k : κ}
    (d : α) (h : (mlookup m k).isSome) : (getOrIns m k d).2 = m := by
  rcases Option.isSome_iff_exists.mp h with ⟨v, hv⟩
  simp [getOrIns, hv]

/-! ### Priority-queue lemmas -/

theorem pqLe_total (x y : Int × String) : pqLe x y ∨ pqLe y x := by
  rcases lt_trichotomy x.1 y.1 with h | h | h
  · exact Or.inl (Or.inl h)
  · rcases le_total x.2 y.2 with h2 | h2
    · exact Or.inl (Or.inr ⟨h, h2⟩)
    · exact Or.inr (Or.inr ⟨h.symm, h2⟩)
  · exact Or.inr (Or.inl h)

theorem pqLe_of_not_pqLe {x y : Int × String} (h : ¬ pqLe x y) : pqLe y x :=
  (pqLe_total x y).resolve_left h

theorem pqLe_trans {x y z : Int × String} (h1 : pqLe x y) (h2 : pqLe y z) : pqLe x z := by
  rcases h1 with h1 | ⟨h1, h1'⟩ <;> rcases h2 with h2 | ⟨h2, h2'⟩
  · exact Or.inl (lt_trans h1 h2)
  · exact Or.inl (h2 ▸ h1)
  · exact Or.inl (h1 ▸ h2)
  · exact Or.inr ⟨h1.trans h2, le_trans h1' h2'⟩

theorem mem_pqPush {e a : Int × String} {l : List (Int × String)} :
    a ∈ pqPush e l ↔ a = e ∨ a ∈ l := by
  induction l with
  | nil => simp [pqPush]
  | cons h t ih =>
    by_cases hle : pqLe e h
    · rw [pqPush, if_pos hle]
      simp only [List.mem_cons]
      try tauto
    · rw [pqPush, if_neg hle]
      simp only [List.mem_cons, ih]
      try tauto

theorem pqPush_pairwise {e : Int × String} {l : List (Int × String)}
    (hs : List.Pairwise pqLe l) : List.Pairwise pqLe (pqPush e l) := by
  induction l with
  | nil => simp [pqPush]
  | cons h t ih =>
    rcases List.pairwise_cons.mp hs with ⟨hh, ht⟩
    by_cases hle : pqLe e h
    · simp only [pqPush, if_pos hle]
      refine List.pairwise_cons.mpr ⟨?_, hs⟩
      intro b hb
      rcases List.mem_cons.mp hb with hb | hb
      · exact hb ▸ hle
      · exact pqLe_trans hle (hh b hb)
    · simp only [pqPush, if_neg hle]
      refine List.pairwise_cons.mpr ⟨?_, ih ht⟩
      intro b hb
      rcases mem_pqPush.mp hb with hb | hb
      · exact hb ▸ pqLe_of_not_pqLe hle
      · exact hh b hb

/-! ### The query operations never mutate the graph or the order index -/

theorem relaxNeighbor_g (current : String) (st : DState) (e : String × Int) :
    (relaxNeighbor current st e).g = st.g := by
  unfold relaxNeighbor
  by_cases h1 : (getOrIns st.dist current 0).1 ≠ INT_MAX
  · simp only [if_pos h1]
    by_cases h2 :
        (getOrIns st.dist current 0).1 + e.2 < (getOrIns (getOrIns st.dist current 0).2 e.1 0).1
    · simp [if_pos h2]
    · simp [if_neg h2]
  · simp [if_neg h1]

theorem foldl_relax_g (current : String) (adj : Row) (st : DState) :
    (adj.foldl (relaxNeighbor current) st).g = st.g := by
  induction adj generalizing st with
  | nil => rfl
  | cons e rest ih => rw [List.foldl_cons, ih, relaxNeighbor_g]

theorem dijkstraLoop_g (fuel : Nat) (st : DState) : (dijkstraLoop fuel st).g = st.g := by
  induction fuel generalizing st with
  | zero => rfl
  | succ fuel ih =>
    rw [dijkstraLoop]
    match hpq : st.pq with
    | [] => rfl
    | (k, current) :: pqRest =>
      by_cases hv : current ∈ st.visited
      · simp only [if_pos hv]
        exact ih _
      · simp only [if_neg hv]
        split
        next hc =>
          rw [ih, foldl_relax_g]
          exact getOrIns_snd_of_isSome _ hc
        next hc => exact ih _

theorem findShortestPath_fst (g : Graph) (a b : String) :
    (findShortestPath g a b).1 = g := by
  unfold findShortestPath
  by_cases h : (mlookup (initDist g) a).isSome
  · simp only [if_pos h]
    have hg : (dijkstraLoop (1 + totalAdj g) ⟨g, minsert a 0 (initDist g), [], [], [(0, a)]⟩).g
        = g := dijkstraLoop_g _ _
    match hl : mlookup (dijkstraLoop (1 + totalAdj g)
        ⟨g, minsert a 0 (initDist g), [], [], [(0, a)]⟩).dist b with
    | none => simpa [hl] using hg
    | some de =>
      simp only [hl]
      by_cases hmax : de = INT_MAX
      · simpa [hmax] using hg
      · simp only [if_neg hmax]
        split <;> simpa using hg
  · simp [if_neg h]

theorem mapIndex2_of_edge {g : Graph} {u v : String} {row : Row} {w : Int}
    (hu : mlookup g u = some row) (hv : mlookup row v = some w) :
    mapIndex2 g u v = (w, g) := by
  unfold mapIndex2
  rw [getOrIns_of_eq_some _ hu]
  simp [hv]

theorem calcLoop_fst (g : Graph) (t : Int) (p : List String) :
    (calcLoop g t p).1 = g := by
  induction p generalizing g t with
  | nil => rfl
  | cons u rest ih =>
    match rest with
    | [] => rfl
    | v :: rest2 =>
      rw [calcLoop]
      match hu : mlookup g u with
      | none => rfl
      | some row =>
        simp only
        by_cases hv : (mlookup row v).isSome
        · rcases Option.isSome_iff_exists.mp hv with ⟨w, hw⟩
          simp only [hv, if_pos rfl, mapIndex2_of_edge hu hw]
          exact ih _ _
        · simp [hv]

theorem calculatePathDistance_fst (g : Graph) (p : List String) :
    (calculatePathDistance g p).1 = g := by
  unfold calculatePathDistance
  split
  · rfl
  · exact calcLoop_fst _ _ _

/-- C10 helper: the full state equation for `optimizeDeliveryRoute`. -/
theorem optimizeDeliveryRoute_fst (s : SysState) (orderId : Int) :
    (optimizeDeliveryRoute s orderId).1 = s := by
  unfold optimizeDeliveryRoute
  by_cases hfound : (mlookup s.allOrders orderId).isSome
  · simp only [if_pos hfound]
    rw [getOrIns_snd_of_isSome _ hfound]
    by_cases hdepot : (mlookup s.deliveryGraph "Depot").isSome
    · simp only [hdepot, if_pos rfl]
      simp [findShortestPath_fst, calculatePathDistance_fst]
    · simp [hdepot]
  · simp [hfound]

/-! ### Reachable-graph invariants -/

/-- Shape invariant of every graph the system can build: an ordered map of
ordered rows, symmetric, whose adjacency names are themselves registered. -/
structure GraphWF (g : Graph) : Prop where
  gsorted : MSorted g
  rowsorted : ∀ u row, mlookup g u = some row → MSorted row
  symm : ∀ u v, adjW g u v = adjW g v u
  closed : ∀ u row, mlookup g u = some row → ∀ e, e ∈ row → (mlookup g e.1).isSome = true

theorem GraphWF.row_none {g : Graph} (hg : GraphWF g) {x : String}
    (hx : mlookup g x = none) {u : String} {row : Row}
    (hu : mlookup g u = some row) : mlookup row x = none := by
  cases hrow : mlookup row x with
  | none => rfl
  | some w =>
    have := hg.closed u row hu (x, w) (mem_of_mlookup hrow)
    rw [hx] at this
    simp at this

theorem graphWF_empty : GraphWF [] := by
  refine ⟨List.Pairwise.nil, ?_, ?_, ?_⟩
  · intro u row h
    simp [mlookup] at h
  · intro u v
    simp [adjW, mlookup]
  · intro u row h
    simp [mlookup] at h

theorem addLocation_graphWF {s : SysState} (hg : GraphWF s.deliveryGraph) (name : String) :
    GraphWF ((addLocation s name).1).deliveryGraph := by
  unfold addLocation
  cases hname : mlookup s.deliveryGraph name with
  | some row => exact hg
  | none =>
    simp only
    set g := s.deliveryGraph
    have hlook : ∀ u, mlookup (minsert name ([] : Row) g) u =
        if u = name then some [] else mlookup g u := fun u => mlookup_minsert _ _ _ _
    have hadj : ∀ u v, adjW (minsert name ([] : Row) g) u v =
        if u = name then none else adjW g u v := by
      intro u v
      rw [adjW, hlook u]
      by_cases hu : u = name
      · simp [hu, mlookup]
      · simp only [if_neg hu]
        rfl
    refine ⟨minsert_msorted _ _ hg.gsorted, ?_, ?_, ?_⟩
    · intro u row h
      rw [hlook u] at h
      by_cases hu : u = name
      · rw [if_pos hu] at h
        cases h
        exact List.Pairwise.nil
      · rw [if_neg hu] at h
        exact hg.rowsorted u row h
    · intro u v
      rw [hadj u v, hadj v u]
      by_cases hu : u = name <;> by_cases hv : v = name
      · simp [hu, hv]
      · rw [if_pos hu, if_neg hv]
        rw [adjW]
        cases hrow : mlookup g v with
        | none => rfl
        | some rowv => exact (hg.row_none (hu ▸ hname) hrow).symm
      · rw [if_neg hu, if_pos hv]
        rw [adjW]
        cases hrow : mlookup g u with
        | none => rfl
        | some rowu => exact hg.row_none (hv ▸ hname) hrow
      · rw [if_neg hu, if_neg hv]
        exact hg.symm u v
    · intro u row h e he
      rw [hlook u] at h
      rw [hlook e.1]
      by_cases hu : u = name
      · rw [if_pos hu] at h
        cases h
        simp at he
      · rw [if_neg hu] at h
        have := hg.closed u row h e he
        by_cases he1 : e.1 = name
        · simp [he1]
        · simpa [he1] using this


theorem addRoute_graph_closed_form {s : SysState} {a b : String} (d : Int) {ra rb : Row}
    (ha : mlookup s.deliveryGraph a = some ra)
    (hb : mlookup s.deliveryGraph b = some rb) :
    ((addRoute s a b d).1).deliveryGraph =
      minsert b (minsert a d (if b = a then minsert b d ra else rb))
        (minsert a (minsert b d ra) s.deliveryGraph) := by
  have hguard : ((mlookup s.deliveryGraph a).isSome &&
      (mlookup s.deliveryGraph b).isSome) = true := by
    rw [ha, hb]; rfl
  unfold addRoute
  rw [if_pos hguard]
  have h1 : getOrIns s.deliveryGraph a [] = (ra, s.deliveryGraph) :=
    getOrIns_of_eq_some _ ha
  have hg2b : mlookup (minsert a (minsert b d ra) s.deliveryGraph) b =
      some (if b = a then minsert b d ra else rb) := by
    rw [mlookup_minsert]
    by_cases hba : b = a <;> simp [hba, hb]
  have h2 : getOrIns (minsert a (minsert b d ra) s.deliveryGraph) b [] =
      (if b = a then minsert b d ra else rb, minsert a (minsert b d ra) s.deliveryGraph) :=
    getOrIns_of_eq_some _ hg2b
  simp only [h1, h2]

theorem addRoute_adjW {s : SysState} {a b : String} (d : Int) {ra rb : Row}
    (ha : mlookup s.deliveryGraph a = some ra)
    (hb : mlookup s.deliveryGraph b = some rb) (u v : String) :
    adjW ((addRoute s a b d).1).deliveryGraph u v =
      if (u = a ∧ v = b) ∨ (u = b ∧ v = a) then some d
      else adjW s.deliveryGraph u v := by
  rw [addRoute_graph_closed_form d ha hb]
  by_cases hba : b = a
  · subst hba
    have hrarb : ra = rb := by
      rw [ha] at hb
      cases hb
      rfl
    subst hrarb
    simp only [eq_self_iff_true, if_true]
    rw [adjW, mlookup_minsert, mlookup_minsert]
    by_cases hu : u = b
    · simp only [if_pos hu]
      by_cases hv : v = b
      · simp [hu, hv, mlookup_minsert]
      · simp [hu, hv, adjW, hb, mlookup_minsert]
    · simp only [if_neg hu]
      simp [hu, adjW]
  · rw [adjW, mlookup_minsert, mlookup_minsert]
    by_cases hu : u = b
    · simp only [if_pos hu]
      rw [mlookup_minsert]
      by_cases hv : v = a
      · simp [hu, hv, fun h : b = a => hba h]
      · have hune : ¬(u = a ∧ v = b) := by
          intro hcon
          exact hba (hcon.1 ▸ hu.symm)
        simp only [hv, and_false, or_false, hune, if_false]
        rw [if_neg hba, adjW, hu, hb]
    · by_cases hua : u = a
      · simp only [if_neg hu, if_pos hua]
        rw [mlookup_minsert]
        by_cases hv : v = b
        · simp [hua, hv]
        · have hc : ¬((u = a ∧ v = b) ∨ (u = b ∧ v = a)) := by
            intro hcon
            rcases hcon with ⟨_, h2⟩ | ⟨h1, _⟩
            · exact hv h2
            · exact hu h1
          rw [if_neg hc, adjW, hua, ha]
          simp [hv]
      · have hc : ¬((u = a ∧ v = b) ∨ (u = b ∧ v = a)) := by
          intro hcon
          rcases hcon with ⟨h1, _⟩ | ⟨h1, _⟩
          · exact hua h1
          · exact hu h1
        simp [hu, hua, hc, adjW]

theorem addRoute_keys {s : SysState} {a b : String} (d : Int) {ra rb : Row}
    (ha : mlookup s.deliveryGraph a = some ra)
    (hb : mlookup s.deliveryGraph b = some rb) (u : String) :
    (mlookup ((addRoute s a b d).1).deliveryGraph u).isSome =
      (mlookup s.deliveryGraph u).isSome := by
  rw [addRoute_graph_closed_form d ha hb, mlookup_minsert, mlookup_minsert]
  by_cases hub : u = b
  · simp [hub, hb]
  · by_cases hua : u = a
    · have hab : ¬ a = b := fun h => hub (by rw [hua, h])
      simp [hub, hua, hab, ha]
    · simp [hub, hua]

theorem addRoute_graphWF {s : SysState} (hg : GraphWF s.deliveryGraph)
    (a b : String) (d : Int) : GraphWF ((addRoute s a b d).1).deliveryGraph := by
  by_cases hguard : ((mlookup s.deliveryGraph a).isSome &&
      (mlookup s.deliveryGraph b).isSome) = true
  · rcases Option.isSome_iff_exists.mp (Bool.and_eq_true_iff.mp hguard).1 with ⟨ra, ha⟩
    rcases Option.isSome_iff_exists.mp (Bool.and_eq_true_iff.mp hguard).2 with ⟨rb, hb⟩
    constructor
    · rw [addRoute_graph_closed_form d ha hb]
      exact minsert_msorted _ _ (minsert_msorted _ _ hg.gsorted)
    · rw [addRoute_graph_closed_form d ha hb]
      intro u row h
      rw [mlookup_minsert] at h
      by_cases hub : u = b
      · rw [if_pos hub] at h
        cases h
        apply minsert_msorted
        by_cases hba : b = a
        · rw [if_pos hba]
          exact minsert_msorted _ _ (hg.rowsorted a ra ha)
        · rw [if_neg hba]
          exact hg.rowsorted b rb hb
      · rw [if_neg hub, mlookup_minsert] at h
        by_cases hua : u = a
        · rw [if_pos hua] at h
          cases h
          exact minsert_msorted _ _ (hg.rowsorted a ra ha)
        · rw [if_neg hua] at h
          exact hg.rowsorted u row h
    · intro u v
      rw [addRoute_adjW d ha hb, addRoute_adjW d ha hb]
      by_cases hc : (u = a ∧ v = b) ∨ (u = b ∧ v = a)
      · have hc' : (v = a ∧ u = b) ∨ (v = b ∧ u = a) := by tauto
        rw [if_pos hc, if_pos hc']
      · have hc' : ¬((v = a ∧ u = b) ∨ (v = b ∧ u = a)) := by tauto
        rw [if_neg hc, if_neg hc']
        exact hg.symm u v
    · intro u row h e he
      rw [addRoute_keys d ha hb]
      rw [addRoute_graph_closed_form d ha hb, mlookup_minsert] at h
      by_cases hub : u = b
      · rw [if_pos hub] at h
        cases h
        rcases mem_minsert he with he1 | he1
        · rw [he1]
          simp [ha]
        · by_cases hba : b = a
          · rw [if_pos hba] at he1
            rcases mem_minsert he1 with he2 | he2
            · rw [he2]
              simp [hb]
            · exact hg.closed a ra ha e he2
          · rw [if_neg hba] at he1
            exact hg.closed b rb hb e he1
      · rw [if_neg hub, mlookup_minsert] at h
        by_cases hua : u = a
        · rw [if_pos hua] at h
          cases h
          rcases mem_minsert he with he1 | he1
          · rw [he1]
            simp [hb]
          · exact hg.closed a ra ha e he1
        · rw [if_neg hua] at h
          exact hg.closed u row h e he
  · unfold addRoute
    rw [if_neg hguard]
    exact hg

theorem placeOrder_graph (s : SysState) (r dst : String) (p : Int) :
    ((placeOrder s r dst p).1).deliveryGraph = s.deliveryGraph := by
  unfold placeOrder
  split <;> rfl

theorem processNextOrder_graph (s : SysState) :
    ((processNextOrder s).1).deliveryGraph = s.deliveryGraph := by
  unfold processNextOrder
  split <;> rfl

theorem revertLastDelivery_graph (s : SysState) :
    ((revertLastDelivery s).1).deliveryGraph = s.deliveryGraph := by
  unfold revertLastDelivery
  split <;> rfl

theorem step_graphWF {s : SysState} (op : Op) (hg : GraphWF s.deliveryGraph) :
    GraphWF (step s op).deliveryGraph := by
  cases op with
  | addLocation n => exact addLocation_graphWF hg n
  | addRoute a b d => exact addRoute_graphWF hg a b d
  | placeOrder r dst p =>
    show GraphWF ((placeOrder s r dst p).1).deliveryGraph
    rw [placeOrder_graph]
    exact hg
  | processNext =>
    show GraphWF ((processNextOrder s).1).deliveryGraph
    rw [processNextOrder_graph]
    exact hg
  | trackLast => exact hg
  | listPending => exact hg
  | optimizeRoute i =>
    show GraphWF ((optimizeDeliveryRoute s i).1).deliveryGraph
    rw [optimizeDeliveryRoute_fst]
    exact hg
  | revertLast =>
    show GraphWF ((revertLastDelivery s).1).deliveryGraph
    rw [revertLastDelivery_graph]
    exact hg
  | status => exact hg

theorem run_graphWF (ops : List Op) : ∀ s : SysState, GraphWF s.deliveryGraph →
    GraphWF (run s ops).deliveryGraph := by
  induction ops with
  | nil => exact fun s hs => hs
  | cons op rest ih => exact fun s hs => ih (step s op) (step_graphWF op hs)

theorem msorted_keys_nodup {κ α : Type} [LinearOrder κ] {m : List (κ × α)}
    (h : MSorted m) : (m.map Prod.fst).Nodup :=
  List.pairwise_map.mpr (h.imp ne_of_lt)

/-! ### Non-negative weights, conditional on the inputs -/

/-- All adjacency weights of the graph are non-negative. -/
def NonnegG (g : Graph) : Prop :=
  ∀ u row, mlookup g u = some row → ∀ e, e ∈ row → 0 ≤ e.2

/-- The operation, if it is an `addRoute`, carries a non-negative distance. -/
def RouteNonneg : Op → Prop
  | .addRoute _ _ d => 0 ≤ d
  | _ => True

theorem addLocation_nonneg {s : SysState} (hn : NonnegG s.deliveryGraph) (name : String) :
    NonnegG ((addLocation s name).1).deliveryGraph := by
  unfold addLocation
  cases hname : mlookup s.deliveryGraph name with
  | some row => exact hn
  | none =>
    simp only
    intro u row h e he
    rw [mlookup_minsert] at h
    by_cases hu : u = name
    · rw [if_pos hu] at h
      cases h
      simp at he
    · rw [if_neg hu] at h
      exact hn u row h e he

theorem addRoute_nonneg {s : SysState} (hn : NonnegG s.deliveryGraph)
    (a b : String) {d : Int} (hd : 0 ≤ d) :
    NonnegG ((addRoute s a b d).1).deliveryGraph := by
  by_cases hguard : ((mlookup s.deliveryGraph a).isSome &&
      (mlookup s.deliveryGraph b).isSome) = true
  · rcases Option.isSome_iff_exists.mp (Bool.and_eq_true_iff.mp hguard).1 with ⟨ra, ha⟩
    rcases Option.isSome_iff_exists.mp (Bool.and_eq_true_iff.mp hguard).2 with ⟨rb, hb⟩
    rw [addRoute_graph_closed_form d ha hb]
    intro u row h e he
    rw [mlookup_minsert] at h
    by_cases hub : u = b
    · rw [if_pos hub] at h
      cases h
      rcases mem_minsert he with he1 | he1
      · rw [he1]
        exact hd
      · by_cases hba : b = a
        · rw [if_pos hba] at he1
          rcases mem_minsert he1 with he2 | he2
          · rw [he2]
            exact hd
          · exact hn a ra ha e he2
        · rw [if_neg hba] at he1
          exact hn b rb hb e he1
    · rw [if_neg hub, mlookup_minsert] at h
      by_cases hua : u = a
      · rw [if_pos hua] at h
        cases h
        rcases mem_minsert he with he1 | he1
        · rw [he1]
          exact hd
        · exact hn a ra ha e he1
      · rw [if_neg hua] at h
        exact hn u row h e he
  · unfold addRoute
    rw [if_neg hguard]
    exact hn

theorem step_nonneg {s : SysState} {op : Op} (hn : NonnegG s.deliveryGraph)
    (hop : RouteNonneg op) : NonnegG (step s op).deliveryGraph := by
  cases op with
  | addLocation n => exact addLocation_nonneg hn n
  | addRoute a b d => exact addRoute_nonneg hn a b hop
  | placeOrder r dst p =>
    show NonnegG ((placeOrder s r dst p).1).deliveryGraph
    rw [placeOrder_graph]
    exact hn
  | processNext =>
    show NonnegG ((processNextOrder s).1).deliveryGraph
    rw [processNextOrder_graph]
    exact hn
  | trackLast => exact hn
  | listPending => exact hn
  | optimizeRoute i =>
    show NonnegG ((optimizeDeliveryRoute s i).1).deliveryGraph
    rw [optimizeDeliveryRoute_fst]
    exact hn
  | revertLast =>
    show NonnegG ((revertLastDelivery s).1).deliveryGraph
    rw [revertLastDelivery_graph]
    exact hn
  | status => exact hn

theorem run_nonneg (ops : List Op) : ∀ s : SysState, NonnegG s.deliveryGraph →
    (∀ op ∈ ops, RouteNonneg op) → NonnegG (run s ops).deliveryGraph := by
  induction ops with
  | nil => exact fun s hs _ => hs
  | cons op rest ih =>
    intro s hs hall
    exact ih (step s op) (step_nonneg hs (hall op (List.mem_cons_self _ _)))
      (fun o ho => hall o (List.mem_cons_of_mem _ ho))

/-! ### Order-id bookkeeping -/

/-- The arithmetic sequence `c, c+1, ..., c+n-1`. -/
def idRange (c : Int) : Nat → List Int
  | 0 => []
  | n + 1 => c :: idRange (c + 1) n

theorem mem_idRange {x c : Int} : ∀ {n : Nat}, x ∈ idRange c n → c ≤ x := by
  intro n
  induction n generalizing c with
  | zero => intro h; simp [idRange] at h
  | succ n ih =>
    intro h
    rcases List.mem_cons.mp h with h | h
    · exact le_of_eq h.symm
    · exact le_trans (by omega) (ih h)

theorem idRange_pairwise (c : Int) : ∀ n, List.Pairwise (· < ·) (idRange c n) := by
  intro n
  induction n generalizing c with
  | zero => exact List.Pairwise.nil
  | succ n ih =>
    refine List.pairwise_cons.mpr ⟨?_, ih (c + 1)⟩
    intro x hx
    have := mem_idRange hx
    omega

theorem step_placeOrder_eq (s : SysState) (r dst : String) (p : Int) :
    step s (Op.placeOrder r dst p) = (placeOrder s r dst p).1 := rfl

theorem step_nextOrderId (s : SysState) (op : Op)
    (h : ∀ r dst p, op ≠ Op.placeOrder r dst p) :
    (step s op).nextOrderId = s.nextOrderId := by
  cases op with
  | addLocation n =>
    show ((addLocation s n).1).nextOrderId = _
    unfold addLocation
    split <;> rfl
  | addRoute a b d =>
    show ((addRoute s a b d).1).nextOrderId = _
    unfold addRoute
    split <;> rfl
  | placeOrder r dst p => exact absurd rfl (h r dst p)
  | processNext =>
    show ((processNextOrder s).1).nextOrderId = _
    unfold processNextOrder
    split <;> rfl
  | trackLast => rfl
  | listPending => rfl
  | optimizeRoute i =>
    show ((optimizeDeliveryRoute s i).1).nextOrderId = _
    rw [optimizeDeliveryRoute_fst]
  | revertLast =>
    show ((revertLastDelivery s).1).nextOrderId = _
    unfold revertLastDelivery
    split <;> rfl
  | status => rfl

theorem placedIds_eq (ops : List Op) : ∀ s : SysState,
    placedIds s ops = idRange s.nextOrderId (placedCount s ops) := by
  induction ops with
  | nil => intro s; rfl
  | cons op rest ih =>
    intro s
    cases op with
    | placeOrder r dst p =>
      rw [placedIds, placedCount]
      by_cases hok : ((mlookup s.deliveryGraph r).isSome &&
          (mlookup s.deliveryGraph dst).isSome) = true
      · have hplace : placeOrder s r dst p =
            ({ s with nextOrderId := s.nextOrderId + 1,
                      incomingOrders := s.incomingOrders ++
                        [⟨s.nextOrderId, r, dst, p⟩],
                      allOrders := minsert s.nextOrderId
                        ⟨s.nextOrderId, r, dst, p⟩ s.allOrders },
              some s.nextOrderId) := by
          unfold placeOrder
          rw [if_pos hok]
        rw [hplace]
        simp only
        rw [ih]
        show _ = idRange s.nextOrderId (1 + _)
        rw [Nat.add_comm 1 _, idRange]
      · have hplace : placeOrder s r dst p = (s, none) := by
          unfold placeOrder
          rw [if_neg hok]
        rw [hplace]
        simp only
        exact ih s
    | addLocation n =>
      have hne : ∀ (r dst : String) (p : Int), Op.addLocation n ≠ Op.placeOrder r dst p :=
        fun r dst p h => Op.noConfusion h
      rw [placedIds, placedCount, ih, step_nextOrderId s _ hne]
      all_goals exact hne
    | addRoute a b d =>
      have hne : ∀ (r dst : String) (p : Int), Op.addRoute a b d ≠ Op.placeOrder r dst p :=
        fun r dst p h => Op.noConfusion h
      rw [placedIds, placedCount, ih, step_nextOrderId s _ hne]
      all_goals exact hne
    | processNext =>
      have hne : ∀ (r dst : String) (p : Int), Op.processNext ≠ Op.placeOrder r dst p :=
        fun r dst p h => Op.noConfusion h
      rw [placedIds, placedCount, ih, step_nextOrderId s _ hne]
      all_goals exact hne
    | trackLast =>
      have hne : ∀ (r dst : String) (p : Int), Op.trackLast ≠ Op.placeOrder r dst p :=
        fun r dst p h => Op.noConfusion h
      rw [placedIds, placedCount, ih, step_nextOrderId s _ hne]
      all_goals exact hne
    | listPending =>
      have hne : ∀ (r dst : String) (p : Int), Op.listPending ≠ Op.placeOrder r dst p :=
        fun r dst p h => Op.noConfusion h
      rw [placedIds, placedCount, ih, step_nextOrderId s _ hne]
      all_goals exact hne
    | optimizeRoute i =>
      have hne : ∀ (r dst : String) (p : Int), Op.optimizeRoute i ≠ Op.placeOrder r dst p :=
        fun r dst p h => Op.noConfusion h
      rw [placedIds, placedCount, ih, step_nextOrderId s _ hne]
      all_goals exact hne
    | revertLast =>
      have hne : ∀ (r dst : String) (p : Int), Op.revertLast ≠ Op.placeOrder r dst p :=
        fun r dst p h => Op.noConfusion h
      rw [placedIds, placedCount, ih, step_nextOrderId s _ hne]
      all_goals exact hne
    | status =>
      have hne : ∀ (r dst : String) (p : Int), Op.status ≠ Op.placeOrder r dst p :=
        fun r dst p h => Op.noConfusion h
      rw [placedIds, placedCount, ih, step_nextOrderId s _ hne]
      all_goals exact hne

instance (op : Op) : Decidable (RouteNonneg op) :=
  match op with
  | .addLocation _ => inferInstanceAs (Decidable True)
  | .addRoute _ _ d => inferInstanceAs (Decidable (0 ≤ d))
  | .placeOrder _ _ _ => inferInstanceAs (Decidable True)
  | .processNext => inferInstanceAs (Decidable True)
  | .trackLast => inferInstanceAs (Decidable True)
  | .listPending => inferInstanceAs (Decidable True)
  | .optimizeRoute _ => inferInstanceAs (Decidable True)
  | .revertLast => inferInstanceAs (Decidable True)
  | .status => inferInstanceAs (Decidable True)

/-! ### Claim theorems (system level) -/

/-- C1: the spec states that the shortest-path query from a location to
itself returns the single-element path `[a]` with distance 0.  Evaluating
the code at the failing input (the reachable graph holding just location
"A") shows `findShortestPath("A","A")` returns the empty path instead: the
reconstruction loop runs zero iterations, and the final
`!path.empty() && path.front() == start` check then discards the result. -/
theorem C1_selfQuery_returns_empty_path :
    (findShortestPath (run initState [Op.addLocation "A"]).deliveryGraph "A" "A").2
      = [] ∧
    (findShortestPath (run initState [Op.addLocation "A"]).deliveryGraph "A" "A").2
      ≠ ["A"] := by
  decide

/-- C3: in every reachable state the graph is simple (its key list and every
adjacency row's key list hold no duplicates, so at most one weight per
ordered pair and hence per unordered pair) and undirected (`b` appears in
`a`'s adjacency with weight `w` iff `a` appears in `b`'s with the same `w`);
every operation of the command interface preserves this. -/
theorem C3_graph_simple_undirected (ops : List Op) :
    (((run initState ops).deliveryGraph).map Prod.fst).Nodup ∧
    (∀ u row, mlookup (run initState ops).deliveryGraph u = some row →
      (row.map Prod.fst).Nodup) ∧
    (∀ a b w, adjW (run initState ops).deliveryGraph a b = some w ↔
      adjW (run initState ops).deliveryGraph b a = some w) := by
  have hg := run_graphWF ops initState graphWF_empty
  refine ⟨msorted_keys_nodup hg.gsorted, ?_, ?_⟩
  · intro u row h
    exact msorted_keys_nodup (hg.rowsorted u row h)
  · intro a b w
    rw [hg.symm a b]

/-- C4: `addRoute` with an unregistered endpoint and `placeOrder` with an
unregistered restaurant or destination fail with their error outcome and
return the state exactly unchanged: graph, pending queue, completed stack,
order index and next-id counter (no order is created, no id consumed). -/
theorem C4_unknown_location_no_mutation (s : SysState) (a b r dst : String)
    (d p : Int) :
    ((mlookup s.deliveryGraph a = none ∨ mlookup s.deliveryGraph b = none) →
      addRoute s a b d = (s, false)) ∧
    ((mlookup s.deliveryGraph r = none ∨ mlookup s.deliveryGraph dst = none) →
      placeOrder s r dst p = (s, none)) := by
  constructor
  · intro h
    have hg : ¬ ((mlookup s.deliveryGraph a).isSome &&
        (mlookup s.deliveryGraph b).isSome) = true := by
      rcases h with h | h <;> simp [h]
    unfold addRoute
    rw [if_neg hg]
  · intro h
    have hg : ¬ ((mlookup s.deliveryGraph r).isSome &&
        (mlookup s.deliveryGraph dst).isSome) = true := by
      rcases h with h | h <;> simp [h]
    unfold placeOrder
    rw [if_neg hg]

/-- C5: over any trace of operations from the initial state, the ids handed
out by the successful `placeOrder` calls are exactly
`1001, 1002, ..., 1000 + N` in order (`idRange 1001 N`): distinct, strictly
increasing, starting at 1001, one increment per successful placement.  Only
`placeOrder` consumes ids, so an id is never reissued, no matter how orders
are processed, reverted and re-processed in between. -/
theorem C5_order_ids_strictly_increasing (ops : List Op) :
    placedIds initState ops = idRange 1001 (placedCount initState ops) ∧
    List.Pairwise (· < ·) (placedIds initState ops) ∧
    (placedIds initState ops).Nodup := by
  have h := placedIds_eq ops initState
  refine ⟨h, ?_, ?_⟩
  · rw [h]
    exact idRange_pairwise _ _
  · rw [h]
    exact (idRange_pairwise _ _).imp ne_of_lt

/-- C6: from any state with a non-empty pending queue, `processNextOrder`
followed immediately by `revertLastDelivery` returns the processed order —
the identical record, id, restaurant, destination and price included — to
the back of the pending queue; net queue length and every other state
component are unchanged. -/
theorem C6_process_then_revert (s : SysState) (o : Order) (rest : List Order)
    (h : s.incomingOrders = o :: rest) :
    ((revertLastDelivery (processNextOrder s).1).1).incomingOrders = rest ++ [o] ∧
    ((revertLastDelivery (processNextOrder s).1).1).incomingOrders.length =
      s.incomingOrders.length ∧
    ((revertLastDelivery (processNextOrder s).1).1).completedOrders =
      s.completedOrders ∧
    ((revertLastDelivery (processNextOrder s).1).1).deliveryGraph = s.deliveryGraph ∧
    ((revertLastDelivery (processNextOrder s).1).1).allOrders = s.allOrders ∧
    ((revertLastDelivery (processNextOrder s).1).1).nextOrderId = s.nextOrderId ∧
    (revertLastDelivery (processNextOrder s).1).2 = some o := by
  simp [processNextOrder, revertLastDelivery, h]

theorem C6_witness :
    ((revertLastDelivery (processNextOrder
      ⟨[⟨1001, "R", "D", 10⟩], [], [], [], 1002⟩).1).1).incomingOrders =
      [⟨1001, "R", "D", 10⟩] :=
  (C6_process_then_revert ⟨[⟨1001, "R", "D", 10⟩], [], [], [], 1002⟩
    ⟨1001, "R", "D", 10⟩ [] rfl).1

/-- C8: the spec states that when one leg of the two-leg optimization is
unreachable the total is reported as a distinguished "cannot be calculated"
outcome (`totalDistance = -1` in this model).  Evaluating the code at the
failing input (Depot—R connected, D isolated, order R -> D) shows the
unreachable leg instead yields the empty path whose `calculatePathDistance`
is 0 — not `INT_MAX` — so the code reports the numeric total 5. -/
theorem C8_unreachable_leg_gets_numeric_total :
    optimizeDeliveryRoute (run initState
      [Op.addLocation "Depot", Op.addLocation "R", Op.addLocation "D",
       Op.addRoute "Depot" "R" 5, Op.placeOrder "R" "D" 10]) 1001 =
    (run initState
      [Op.addLocation "Depot", Op.addLocation "R", Op.addLocation "D",
       Op.addRoute "Depot" "R" 5, Op.placeOrder "R" "D" 10],
     OptResult.routes ["Depot", "R"] 5 [] 0 5) := by
  decide

/-- C9 counterexample: the claim says every reachable edge weight is
non-negative, but `addRoute` performs no validation: after the reachable
trace `add-location A; add-location B; add-route A B (-1)` the stored
weight of A—B is -1 < 0. -/
theorem C9_counterexample_negative_weight :
    adjW (run initState [Op.addLocation "A", Op.addLocation "B",
      Op.addRoute "A" "B" (-1)]).deliveryGraph "A" "B" = some (-1) ∧
    ((-1 : Int) < 0) := by
  decide

/-- C9 (amended): `addRoute` stores exactly the distance it is given, so the
invariant holds only conditionally: if every `add-route` of the trace
carries a non-negative distance — the input domain the spec documents as
`distance(int ≥ 0)` — then every edge weight in the reachable state is
non-negative. -/
theorem C9_nonneg_weights_if_inputs_nonneg (ops : List Op)
    (h : ∀ op ∈ ops, RouteNonneg op) :
    ∀ u row, mlookup (run initState ops).deliveryGraph u = some row →
      ∀ e, e ∈ row → 0 ≤ e.2 := by
  refine run_nonneg ops initState ?_ h
  intro u row hrow
  simp [mlookup] at hrow

theorem C9_nonneg_weights_witness :
    (∀ op ∈ ([Op.addLocation "A", Op.addLocation "B",
        Op.addRoute "A" "B" 2] : List Op), RouteNonneg op) ∧
    (∀ u row, mlookup (run initState [Op.addLocation "A", Op.addLocation "B",
        Op.addRoute "A" "B" 2]).deliveryGraph u = some row →
      ∀ e, e ∈ row → 0 ≤ e.2) :=
  ⟨by decide, C9_nonneg_weights_if_inputs_nonneg _ (by decide)⟩

/-- C10: `optimizeDeliveryRoute` is a pure query.  Every `operator[]` access
it (and the `findShortestPath` / `calculatePathDistance` calls it makes)
performs on the shared containers is guarded by a `count`/`find` check, so
the returned state — graph, pending queue, completed stack, order index and
next-id counter — is exactly the input state, in the order-not-found,
missing-Depot and success branches alike. -/
theorem C10_optimizeRoute_is_pure (s : SysState) (orderId : Int) :
    (optimizeDeliveryRoute s orderId).1 = s :=
  optimizeDeliveryRoute_fst s orderId

/-! ### Walks and their costs -/

/-- `WalkCost g a v p c`: `p` is a walk in `g` from `a` to `v` (consecutive
adjacency entries exist) whose edge weights sum to `c`. -/
inductive WalkCost (g : Graph) (a : String) : String → List String → Int → Prop where
  | single : WalkCost g a a [a] 0
  | snoc {u v : String} {p : List String} {c w : Int} :
      WalkCost g a u p c → adjW g u v = some w → WalkCost g a v (p ++ [v]) (c + w)

theorem WalkCost.cost_congr {g : Graph} {a v : String} {p : List String} {c c' : Int}
    (h : WalkCost g a v p c) (hc : c = c') : WalkCost g a v p c' := hc ▸ h

theorem WalkCost.ne_nil {g : Graph} {a v : String} {p : List String} {c : Int}
    (h : WalkCost g a v p c) : p ≠ [] := by
  cases h with
  | single => simp
  | snoc h hedge => simp

theorem WalkCost.head_eq {g : Graph} {a v : String} {p : List String} {c : Int}
    (h : WalkCost g a v p c) : p.head? = some a := by
  induction h with
  | single => rfl
  | snoc h hedge ih =>
    rename_i u v' p' c' w
    cases p' with
    | nil => exact absurd rfl h.ne_nil
    | cons x xs => simpa using ih

/-- Ambient hypotheses on the graph for the Dijkstra proofs: sorted shape,
adjacency closure and non-negative weights. -/
structure GHyp (g : Graph) : Prop where
  gsorted : MSorted g
  rowsorted : ∀ u row, mlookup g u = some row → MSorted row
  closed : ∀ u row, mlookup g u = some row → ∀ e, e ∈ row → (mlookup g e.1).isSome = true
  nonneg : ∀ u row, mlookup g u = some row → ∀ e, e ∈ row → 0 ≤ e.2

theorem adjW_some_elim {g : Graph} {u v : String} {w : Int}
    (h : adjW g u v = some w) :
    ∃ row, mlookup g u = some row ∧ mlookup row v = some w := by
  unfold adjW at h
  cases hrow : mlookup g u with
  | none => rw [hrow] at h; cases h
  | some row => rw [hrow] at h; exact ⟨row, rfl, h⟩

theorem adjW_nonneg {g : Graph} (hg : GHyp g) {u v : String} {w : Int}
    (h : adjW g u v = some w) : 0 ≤ w := by
  rcases adjW_some_elim h with ⟨row, hrow, hw⟩
  exact hg.nonneg u row hrow (v, w) (mem_of_mlookup hw)

theorem adjW_closed {g : Graph} (hg : GHyp g) {u v : String} {w : Int}
    (h : adjW g u v = some w) : (mlookup g v).isSome = true := by
  rcases adjW_some_elim h with ⟨row, hrow, hw⟩
  exact hg.closed u row hrow (v, w) (mem_of_mlookup hw)

theorem WalkCost.cost_nonneg {g : Graph} (hg : GHyp g) {a v : String}
    {p : List String} {c : Int} (h : WalkCost g a v p c) : 0 ≤ c := by
  induction h with
  | single => exact le_refl 0
  | snoc h hedge ih => exact add_nonneg ih (adjW_nonneg hg hedge)

theorem WalkCost.cons {g : Graph} {u x v : String} {q : List String} {c w : Int}
    (h : WalkCost g u x q c) (hedge : adjW g v u = some w) :
    WalkCost g v x (v :: q) (w + c) := by
  induction h with
  | single =>
    have h0 : WalkCost g v u ([v] ++ [u]) (0 + w) :=
      WalkCost.snoc WalkCost.single hedge
    exact (h0.cost_congr (by ring))
  | snoc h hedge2 ih =>
    rename_i u' v' p' c' w'
    have h1 : WalkCost g v v' ((v :: p') ++ [v']) ((w + c') + w') :=
      WalkCost.snoc ih hedge2
    have h2 : (v :: p') ++ [v'] = v :: (p' ++ [v']) := by simp
    exact ((h2 ▸ h1).cost_congr (by ring))

theorem WalkCost.reverse {g : Graph} (hsym : ∀ u v, adjW g u v = adjW g v u)
    {a v : String} {p : List String} {c : Int} (h : WalkCost g a v p c) :
    WalkCost g v a p.reverse c := by
  induction h with
  | single => exact WalkCost.single
  | snoc h hedge ih =>
    rename_i u v' p' c' w
    have hedge' : adjW g v' u = some w := by rw [hsym v' u, hedge]
    have h1 : WalkCost g v' a (v' :: p'.reverse) (w + c') := ih.cons hedge'
    have h2 : (p' ++ [v']).reverse = v' :: p'.reverse := by simp
    exact (h2 ▸ h1).cost_congr (by ring)

theorem WalkCost.front {g : Graph} {a v : String} {p : List String} {c : Int}
    (h : WalkCost g a v p c) :
    (a = v ∧ p = [a] ∧ c = 0) ∨
    ∃ b q w c2, p = a :: b :: q ∧ adjW g a b = some w ∧
      WalkCost g b v (b :: q) c2 ∧ c = w + c2 := by
  induction h with
  | single => exact Or.inl ⟨rfl, rfl, rfl⟩
  | snoc h hedge ih =>
    rename_i u v' p' c' w
    rcases ih with ⟨hav, hp, hc⟩ | ⟨b, q, w2, c2, hp, he, hw, hc⟩
    · right
      refine ⟨v', [], w, 0, by simp [hp, hav], hav ▸ hedge, WalkCost.single, by omega⟩
    · right
      have hsnoc : WalkCost g b v' ((b :: q) ++ [v']) (c2 + w) := WalkCost.snoc hw hedge
      refine ⟨b, q ++ [v'], w2, c2 + w, by rw [hp]; simp, he, ?_, by omega⟩
      simpa using hsnoc

theorem calcLoop_of_walk {g : Graph} {b v : String} :
    ∀ (p : List String) (c total : Int), WalkCost g b v p c →
      calcLoop g total p = (g, total + c) := by
  intro p
  induction p generalizing b with
  | nil => intro c total h; exact absurd rfl h.ne_nil
  | cons x xs ih =>
    intro c total h
    have hx : x = b := by
      have := h.head_eq
      simp at this
      exact this
    subst hx
    rcases h.front with ⟨hav, hp, hc⟩ | ⟨y, q, w, c2, hp, he, hw, hc⟩
    · have hxs : xs = [] := by
        cases hp
        rfl
      subst hxs
      subst hc
      simp [calcLoop]
    · have hxs : xs = y :: q := by
        cases hp
        rfl
      subst hxs
      rcases adjW_some_elim he with ⟨row, hrow, hwv⟩
      rw [calcLoop, hrow]
      have hcond : (mlookup row y).isSome = true := by rw [hwv]; rfl
      simp only [hcond, if_true]
      rw [mapIndex2_of_edge hrow hwv]
      have hrec := ih c2 (total + w) hw
      rw [hrec, hc]
      have harith : total + w + c2 = total + (w + c2) := by ring
      rw [harith]

theorem calc_of_walk {g : Graph} {a v : String} {p : List String} {c : Int}
    (h : WalkCost g a v p c) : calculatePathDistance g p = (g, c) := by
  unfold calculatePathDistance
  by_cases hlen : p.length < 2
  · rcases h.front with ⟨hav, hp, hc⟩ | ⟨b, q, w, c2, hp, he, hw, hc⟩
    · rw [if_pos hlen, hc]
    · rw [hp] at hlen
      simp at hlen
      omega
  · rw [if_neg hlen]
    have := calcLoop_of_walk p c 0 h
    rw [this]
    simp

/-! ### The Dijkstra loop invariant -/

/-- Invariant of `dijkstraLoop` between iterations, for source `a` over
graph `g`.  `pqmin` (settled distances are below every queued key) is what
freezes settled distances; `pqcover` guarantees every improvable node is
still scheduled; `frontier` is the relaxed-edge triangle inequality out of
the settled region; `predok`/`predord` describe the predecessor forest. -/
structure DInv (g : Graph) (a : String) (st : DState) : Prop where
  gEq : st.g = g
  distdom : ∀ k, (mlookup st.dist k).isSome = (mlookup g k).isSome
  distval : ∀ v dv, mlookup st.dist v = some dv →
    0 ≤ dv ∧ dv ≤ INT_MAX ∧ (dv ≠ INT_MAX → ∃ p, WalkCost g a v p dv)
  startd : mlookup st.dist a = some 0
  pqsorted : List.Pairwise pqLe st.pq
  pqbound : ∀ k v, (k, v) ∈ st.pq →
    ∃ dv, mlookup st.dist v = some dv ∧ dv ≤ k ∧ k < INT_MAX
  pqcover : ∀ v dv, v ∉ st.visited → mlookup st.dist v = some dv → dv ≠ INT_MAX →
    (dv, v) ∈ st.pq
  visitedopt : ∀ v ∈ st.visited, ∀ dv, mlookup st.dist v = some dv →
    ∀ p c, WalkCost g a v p c → dv ≤ c
  visitedfin : ∀ v ∈ st.visited, ∃ dv, mlookup st.dist v = some dv ∧ dv ≠ INT_MAX
  frontier : ∀ u ∈ st.visited, ∀ row, mlookup g u = some row →
    ∀ v w, mlookup row v = some w → ∀ du dv, mlookup st.dist u = some du →
      mlookup st.dist v = some dv → dv ≤ du + w
  pqmin : ∀ u ∈ st.visited, ∀ du, mlookup st.dist u = some du →
    ∀ k v, (k, v) ∈ st.pq → du ≤ k
  predok : ∀ u p', mlookup st.preds u = some p' → ∃ row w du dp,
    mlookup g p' = some row ∧ mlookup row u = some w ∧
    mlookup st.dist u = some du ∧ mlookup st.dist p' = some dp ∧
    du = dp + w ∧ du ≠ INT_MAX
  predord : ∀ u p', mlookup st.preds u = some p' → p' ∈ st.visited ∧
    ∀ l1 l2, st.visited = l1 ++ u :: l2 → p' ∈ l2
  prednostart : mlookup st.preds a = none
  predtotal : ∀ v dv, mlookup st.dist v = some dv → dv ≠ INT_MAX →
    v = a ∨ (mlookup st.preds v).isSome = true
  predsorted : MSorted st.preds
  visnodup : st.visited.Nodup

theorem INT_MAX_pos : (0 : Int) < INT_MAX := by decide

/-- Any walk to an unsettled node is matched by a queue entry at most its
cost, unless its cost already reaches `INT_MAX`. -/
theorem DInv.cover {g : Graph} {a : String} {st : DState} (hg : GHyp g)
    (hI : DInv g a st) :
    ∀ v p c, WalkCost g a v p c → v ∉ st.visited →
      (∃ k' v', (k', v') ∈ st.pq ∧ k' ≤ c) ∨ INT_MAX ≤ c := by
  intro v p c hw
  induction hw with
  | single =>
    intro hv
    left
    exact ⟨0, a, hI.pqcover a 0 hv hI.startd (by decide), le_refl 0⟩
  | snoc hwalk hedge ih =>
    rename_i u v' p' c' w
    intro hv
    have hw0 : 0 ≤ w := adjW_nonneg hg hedge
    by_cases hu : u ∈ st.visited
    · rcases hI.visitedfin u hu with ⟨du, hdu, hdufin⟩
      have hduopt : du ≤ c' := hI.visitedopt u hu du hdu p' c' hwalk
      rcases adjW_some_elim hedge with ⟨row, hrow, hwv⟩
      have hvdom : (mlookup st.dist v').isSome = true := by
        rw [hI.distdom]
        exact adjW_closed hg hedge
      rcases Option.isSome_iff_exists.mp hvdom with ⟨dv, hdv⟩
      have hfront : dv ≤ du + w := hI.frontier u hu row hrow v' w hwv du dv hdu hdv
      have hdvc : dv ≤ c' + w := le_trans hfront (by omega)
      by_cases hdvfin : dv = INT_MAX
      · right
        omega
      · left
        exact ⟨dv, v', hI.pqcover v' dv hv hdv hdvfin, hdvc⟩
    · rcases ih hu with ⟨k', w', hmem, hk⟩ | hmax
      · left
        exact ⟨k', w', hmem, by omega⟩
      · right
        omega

/-- Facts at a pop of the head `(k, cur)` of the sorted queue with `cur`
unsettled: `k` is `cur`'s tentative distance, finite, optimal, and a lower
bound of the remaining queue. -/
theorem DInv.pop_facts {g : Graph} {a : String} {st : DState} (hg : GHyp g)
    (hI : DInv g a st) {k : Int} {cur : String} {rest : List (Int × String)}
    (hpq : st.pq = (k, cur) :: rest) (hcur : cur ∉ st.visited) :
    mlookup st.dist cur = some k ∧ k ≠ INT_MAX ∧
    (∀ p c, WalkCost g a cur p c → k ≤ c) ∧
    (∀ e ∈ rest, k ≤ e.1) := by
  have hmem : (k, cur) ∈ st.pq := by rw [hpq]; exact List.mem_cons_self _ _
  rcases hI.pqbound k cur hmem with ⟨dv, hdv, hdvk, hkfin⟩
  have hrestle : ∀ e ∈ rest, pqLe (k, cur) e := by
    intro e he
    have := hI.pqsorted
    rw [hpq] at this
    exact (List.pairwise_cons.mp this).1 e he
  have hrest : ∀ e ∈ rest, k ≤ e.1 := by
    intro e he
    rcases hrestle e he with h | ⟨h, _⟩
    · exact le_of_lt h
    · exact le_of_eq h
  have hdvfin : dv ≠ INT_MAX := by omega
  have hdvmem : (dv, cur) ∈ st.pq := hI.pqcover cur dv hcur hdv hdvfin
  have hkdv : k = dv := by
    rw [hpq] at hdvmem
    rcases List.mem_cons.mp hdvmem with h | h
    · cases h
      rfl
    · have := hrest (dv, cur) h
      omega
  subst hkdv
  refine ⟨hdv, hdvfin, ?_, hrest⟩
  intro p c hw
  rcases hI.cover hg cur p c hw hcur with ⟨k', v', hmem', hk'⟩ | hmax
  · rw [hpq] at hmem'
    rcases List.mem_cons.mp hmem' with h | h
    · cases h
      exact hk'
    · exact le_trans (hrest _ h) hk'
  · omega

/-- What one neighbour relaxation does, when the `operator[]` reads hit
present keys. -/
theorem relaxNeighbor_eq {cur v : String} {w dc dv : Int} {st : DState}
    (hdc : mlookup st.dist cur = some dc) (hdcfin : dc ≠ INT_MAX)
    (hdv : mlookup st.dist v = some dv) :
    relaxNeighbor cur st (v, w) =
      if dc + w < dv then
        { st with dist := minsert v (dc + w) st.dist,
                  preds := minsert v cur st.preds,
                  pq := pqPush (dc + w, v) st.pq }
      else st := by
  unfold relaxNeighbor
  rw [getOrIns_of_eq_some _ hdc]
  simp only
  rw [if_pos hdcfin, getOrIns_of_eq_some _ hdv]

theorem mem_of_decomp {l1 l2 vis : List String} {x : String}
    (h : vis = l1 ++ x :: l2) : x ∈ vis := by
  rw [h]
  exact List.mem_append.mpr (Or.inr (List.mem_cons_self _ _))

/-- Invariant inside the neighbour fold of the node `cur` being settled:
`cur` heads the visited list with tentative distance `dc`, and the
`frontier` field is owed only for the previously settled `vOld`. -/
structure FInv (g : Graph) (a cur : String) (dc : Int) (vOld : List String)
    (st : DState) : Prop where
  gEq : st.g = g
  distdom : ∀ k, (mlookup st.dist k).isSome = (mlookup g k).isSome
  distval : ∀ v dv, mlookup st.dist v = some dv →
    0 ≤ dv ∧ dv ≤ INT_MAX ∧ (dv ≠ INT_MAX → ∃ p, WalkCost g a v p dv)
  startd : mlookup st.dist a = some 0
  pqsorted : List.Pairwise pqLe st.pq
  pqbound : ∀ k v, (k, v) ∈ st.pq →
    ∃ dv, mlookup st.dist v = some dv ∧ dv ≤ k ∧ k < INT_MAX
  pqcover : ∀ v dv, v ∉ st.visited → mlookup st.dist v = some dv → dv ≠ INT_MAX →
    (dv, v) ∈ st.pq
  visEq : st.visited = cur :: vOld
  distcur : mlookup st.dist cur = some dc
  dcfin : dc ≠ INT_MAX
  visitedopt : ∀ v ∈ st.visited, ∀ dv, mlookup st.dist v = some dv →
    ∀ p c, WalkCost g a v p c → dv ≤ c
  visitedfin : ∀ v ∈ st.visited, ∃ dv, mlookup st.dist v = some dv ∧ dv ≠ INT_MAX
  frontierOld : ∀ u ∈ vOld, ∀ row, mlookup g u = some row →
    ∀ v w, mlookup row v = some w → ∀ du dv, mlookup st.dist u = some du →
      mlookup st.dist v = some dv → dv ≤ du + w
  pqmin : ∀ u ∈ st.visited, ∀ du, mlookup st.dist u = some du →
    ∀ k v, (k, v) ∈ st.pq → du ≤ k
  visbound : ∀ v ∈ st.visited, ∀ dv, mlookup st.dist v = some dv → dv ≤ dc
  predok : ∀ u p', mlookup st.preds u = some p' → ∃ row w du dp,
    mlookup g p' = some row ∧ mlookup row u = some w ∧
    mlookup st.dist u = some du ∧ mlookup st.dist p' = some dp ∧
    du = dp + w ∧ du ≠ INT_MAX
  predord : ∀ u p', mlookup st.preds u = some p' → p' ∈ st.visited ∧
    ∀ l1 l2, st.visited = l1 ++ u :: l2 → p' ∈ l2
  prednostart : mlookup st.preds a = none
  predtotal : ∀ v dv, mlookup st.dist v = some dv → dv ≠ INT_MAX →
    v = a ∨ (mlookup st.preds v).isSome = true
  predsorted : MSorted st.preds
  visnodup : st.visited.Nodup

theorem pqPush_length (e : Int × String) (l : List (Int × String)) :
    (pqPush e l).length = l.length + 1 := by
  induction l with
  | nil => rfl
  | cons h t ih =>
    by_cases hle : pqLe e h
    · rw [pqPush, if_pos hle]
      rfl
    · rw [pqPush, if_neg hle]
      simp [ih]

theorem relax_preserves {g : Graph} {a cur : String} {dc : Int} {vOld : List String}
    {st : DState} {crow : Row} (hg : GHyp g) (hcrow : mlookup g cur = some crow)
    (hF : FInv g a cur dc vOld st) {v : String} {w : Int}
    (hvw : mlookup crow v = some w) :
    FInv g a cur dc vOld (relaxNeighbor cur st (v, w)) ∧
    (∀ dv', mlookup (relaxNeighbor cur st (v, w)).dist v = some dv' → dv' ≤ dc + w) ∧
    (∀ x dx', mlookup (relaxNeighbor cur st (v, w)).dist x = some dx' →
      ∃ dx, mlookup st.dist x = some dx ∧ dx' ≤ dx) ∧
    (relaxNeighbor cur st (v, w)).visited = st.visited ∧
    (relaxNeighbor cur st (v, w)).pq.length ≤ st.pq.length + 1 := by
  have hvmem : (v, w) ∈ crow := mem_of_mlookup hvw
  have hvdomg : (mlookup g v).isSome = true := hg.closed cur crow hcrow (v, w) hvmem
  have hvdom : (mlookup st.dist v).isSome = true := by
    rw [hF.distdom]
    exact hvdomg
  rcases Option.isSome_iff_exists.mp hvdom with ⟨dv, hdv⟩
  have hw0 : 0 ≤ w := hg.nonneg cur crow hcrow (v, w) hvmem
  have hcurvis : cur ∈ st.visited := by
    rw [hF.visEq]
    exact List.mem_cons_self _ _
  have hedge : adjW g cur v = some w := by
    unfold adjW
    rw [hcrow]
    exact hvw
  have hdc0 : 0 ≤ dc := (hF.distval cur dc hF.distcur).1
  have hdvmax : dv ≤ INT_MAX := (hF.distval v dv hdv).2.1
  rw [relaxNeighbor_eq hF.distcur hF.dcfin hdv]
  by_cases hfire : dc + w < dv
  · rw [if_pos hfire]
    have hvnotvis : v ∉ st.visited := by
      intro hv
      have := hF.visbound v hv dv hdv
      omega
    have hvnecur : v ≠ cur := fun h => hvnotvis (h ▸ hcurvis)
    have hva : v ≠ a := by
      intro h
      subst h
      rw [hF.startd] at hdv
      cases hdv
      omega
    have hnewfin : dc + w < INT_MAX := by omega
    have hnewne : dc + w ≠ INT_MAX := by omega
    have hnew0 : 0 ≤ dc + w := by omega
    have hwalkv : ∃ p, WalkCost g a v p (dc + w) := by
      rcases (hF.distval cur dc hF.distcur).2.2 hF.dcfin with ⟨p, hp⟩
      exact ⟨p ++ [v], hp.snoc hedge⟩
    have hld : ∀ y, mlookup (minsert v (dc + w) st.dist) y =
        if y = v then some (dc + w) else mlookup st.dist y :=
      fun y => mlookup_minsert _ _ _ _
    have hlp : ∀ y, mlookup (minsert v cur st.preds) y =
        if y = v then some cur else mlookup st.preds y :=
      fun y => mlookup_minsert _ _ _ _
    refine ⟨⟨hF.gEq, ?_, ?_, ?_, ?_, ?_, ?_, hF.visEq, ?_, hF.dcfin, ?_, ?_,
      ?_, ?_, ?_, ?_, ?_, ?_, ?_, minsert_msorted _ _ hF.predsorted, hF.visnodup⟩,
      ?_, ?_, rfl, ?_⟩
    · -- distdom
      intro k
      rw [hld k]
      by_cases hk : k = v
      · rw [if_pos hk, hk, hvdomg]
        rfl
      · rw [if_neg hk]
        exact hF.distdom k
    · -- distval
      intro y dy hy
      rw [hld y] at hy
      by_cases hyv : y = v
      · rw [if_pos hyv] at hy
        cases hy
        exact ⟨hnew0, le_of_lt hnewfin, fun _ => hyv ▸ hwalkv⟩
      · rw [if_neg hyv] at hy
        exact hF.distval y dy hy
    · -- startd
      rw [hld a, if_neg (fun h => hva h.symm)]
      exact hF.startd
    · -- pqsorted
      exact pqPush_pairwise hF.pqsorted
    · -- pqbound
      intro k y hk
      rcases mem_pqPush.mp hk with hk | hk
      · cases hk
        exact ⟨dc + w, by rw [hld, if_pos rfl], le_refl _, hnewfin⟩
      · rcases hF.pqbound k y hk with ⟨dy, hdy, hdyk, hkfin⟩
        by_cases hyv : y = v
        · refine ⟨dc + w, by rw [hld, if_pos hyv], ?_, hkfin⟩
          rw [hyv] at hdy
          rw [hdv] at hdy
          cases hdy
          omega
        · exact ⟨dy, by rw [hld, if_neg hyv]; exact hdy, hdyk, hkfin⟩
    · -- pqcover
      intro y dy hynv hy hyfin
      rw [hld y] at hy
      by_cases hyv : y = v
      · rw [if_pos hyv] at hy
        cases hy
        rw [hyv]
        exact mem_pqPush.mpr (Or.inl rfl)
      · rw [if_neg hyv] at hy
        exact mem_pqPush.mpr (Or.inr (hF.pqcover y dy hynv hy hyfin))
    · -- distcur
      rw [hld cur, if_neg (fun h => hvnecur h.symm)]
      exact hF.distcur
    · -- visitedopt
      intro y hyvis dy hy p c hw
      have hyv : y ≠ v := fun h => hvnotvis (h ▸ hyvis)
      rw [hld y, if_neg hyv] at hy
      exact hF.visitedopt y hyvis dy hy p c hw
    · -- visitedfin: dist of visited nodes unchanged
      intro y hyvis
      have hyv : y ≠ v := fun h => hvnotvis (h ▸ hyvis)
      rcases hF.visitedfin y hyvis with ⟨dy, hdy, hfin⟩
      exact ⟨dy, by rw [hld y, if_neg hyv]; exact hdy, hfin⟩
    · -- frontierOld
      intro u hu row hrow y wy hwy du dy hdu hdy2
      have huvis : u ∈ st.visited := by
        rw [hF.visEq]
        exact List.mem_cons_of_mem _ hu
      have huv : u ≠ v := fun h => hvnotvis (h ▸ huvis)
      rw [hld u, if_neg huv] at hdu
      rw [hld y] at hdy2
      by_cases hyv : y = v
      · rw [if_pos hyv] at hdy2
        cases hdy2
        have hold := hF.frontierOld u hu row hrow y wy hwy du dv hdu (hyv ▸ hdv)
        omega
      · rw [if_neg hyv] at hdy2
        exact hF.frontierOld u hu row hrow y wy hwy du dy hdu hdy2
    · -- pqmin
      intro u huvis du hdu k y hky
      have huv : u ≠ v := fun h => hvnotvis (h ▸ huvis)
      rw [hld u, if_neg huv] at hdu
      rcases mem_pqPush.mp hky with hky | hky
      · cases hky
        have := hF.visbound u huvis du hdu
        omega
      · exact hF.pqmin u huvis du hdu k y hky
    · -- visbound
      intro y hyvis dy hy
      have hyv : y ≠ v := fun h => hvnotvis (h ▸ hyvis)
      rw [hld y, if_neg hyv] at hy
      exact hF.visbound y hyvis dy hy
    · -- predok
      intro y p' hy
      rw [hlp y] at hy
      by_cases hyv : y = v
      · rw [if_pos hyv] at hy
        cases hy
        refine ⟨crow, w, dc + w, dc, hcrow, hyv ▸ hvw, ?_, ?_, rfl, hnewne⟩
        · rw [hld y, if_pos hyv]
        · rw [hld cur, if_neg (fun h => hvnecur h.symm)]
          exact hF.distcur
      · rw [if_neg hyv] at hy
        rcases hF.predok y p' hy with ⟨row, wy, du, dp, hrow, hwy, hdu, hdp, heq, hfin⟩
        have hp'vis : p' ∈ st.visited := (hF.predord y p' hy).1
        have hp'v : p' ≠ v := fun h => hvnotvis (h ▸ hp'vis)
        refine ⟨row, wy, du, dp, hrow, hwy, ?_, ?_, heq, hfin⟩
        · rw [hld y, if_neg hyv]
          exact hdu
        · rw [hld p', if_neg hp'v]
          exact hdp
    · -- predord
      intro y p' hy
      rw [hlp y] at hy
      by_cases hyv : y = v
      · rw [if_pos hyv] at hy
        cases hy
        refine ⟨hcurvis, ?_⟩
        intro l1 l2 hdecomp
        exact absurd (hyv ▸ mem_of_decomp hdecomp) hvnotvis
      · rw [if_neg hyv] at hy
        exact hF.predord y p' hy
    · -- prednostart
      rw [hlp a, if_neg (fun h => hva h.symm)]
      exact hF.prednostart
    · -- predtotal
      intro y dy hy hyfin
      rw [hld y] at hy
      by_cases hyv : y = v
      · right
        rw [hlp y, if_pos hyv]
        rfl
      · rw [if_neg hyv] at hy
        rcases hF.predtotal y dy hy hyfin with h | h
        · exact Or.inl h
        · right
          rw [hlp y, if_neg hyv]
          exact h
    · -- the processed-neighbour bound
      intro dv' hdv'
      rw [hld v, if_pos rfl] at hdv'
      cases hdv'
      exact le_refl _
    · -- dist monotone
      intro x dx' hx
      rw [hld x] at hx
      by_cases hxv : x = v
      · rw [if_pos hxv] at hx
        cases hx
        exact ⟨dv, hxv ▸ hdv, le_of_lt hfire⟩
      · rw [if_neg hxv] at hx
        exact ⟨dx', hx, le_refl _⟩
    · -- pq length
      show (pqPush (dc + w, v) st.pq).length ≤ st.pq.length + 1
      rw [pqPush_length]
  · rw [if_neg hfire]
    refine ⟨hF, ?_, ?_, rfl, by omega⟩
    · intro dv' hdv'
      rw [hdv] at hdv'
      cases hdv'
      omega
    · intro x dx' hx
      exact ⟨dx', hx, le_refl _⟩

theorem relaxAll_spec {g : Graph} {a cur : String} {dc : Int} {vOld : List String}
    {crow : Row} (hg : GHyp g) (hcrow : mlookup g cur = some crow) :
    ∀ (suffix : List (String × Int)) (st : DState), FInv g a cur dc vOld st →
      (∀ e ∈ suffix, mlookup crow e.1 = some e.2) →
      FInv g a cur dc vOld (suffix.foldl (relaxNeighbor cur) st) ∧
      (∀ e ∈ suffix, ∀ dv',
        mlookup (suffix.foldl (relaxNeighbor cur) st).dist e.1 = some dv' →
          dv' ≤ dc + e.2) ∧
      (∀ x dx', mlookup (suffix.foldl (relaxNeighbor cur) st).dist x = some dx' →
        ∃ dx, mlookup st.dist x = some dx ∧ dx' ≤ dx) ∧
      (suffix.foldl (relaxNeighbor cur) st).visited = st.visited ∧
      (suffix.foldl (relaxNeighbor cur) st).pq.length ≤
        st.pq.length + suffix.length := by
  intro suffix
  induction suffix with
  | nil =>
    intro st hF _
    exact ⟨hF, by simp, fun x dx' hx => ⟨dx', hx, le_refl _⟩, rfl, by simp⟩
  | cons e rest ih =>
    obtain ⟨v, w⟩ := e
    intro st hF hsub
    have he : mlookup crow v = some w := hsub (v, w) (List.mem_cons_self _ _)
    obtain ⟨hF1, hbound1, hmono1, hvis1, hlen1⟩ := relax_preserves hg hcrow hF he
    obtain ⟨hF2, hbound2, hmono2, hvis2, hlen2⟩ :=
      ih (relaxNeighbor cur st (v, w)) hF1 (fun x hx => hsub x (List.mem_cons_of_mem _ hx))
    rw [List.foldl_cons]
    refine ⟨hF2, ?_, ?_, ?_, ?_⟩
    · intro x hx dv' hdv'
      rcases List.mem_cons.mp hx with hx | hx
      · subst hx
        rcases hmono2 v dv' hdv' with ⟨dmid, hdmid, hle⟩
        have := hbound1 dmid hdmid
        omega
      · exact hbound2 x hx dv' hdv'
    · intro x dx' hx
      rcases hmono2 x dx' hx with ⟨dmid, hdmid, h1⟩
      rcases hmono1 x dmid hdmid with ⟨dx, hdx, h2⟩
      exact ⟨dx, hdx, le_trans h1 h2⟩
    · rw [hvis2, hvis1]
    · have : rest.length + 1 = (1 : Nat) + rest.length := by omega
      simp only [List.length_cons]
      omega

theorem skip_preserves {g : Graph} {a : String} {st : DState} {k : Int}
    {cur : String} {rest : List (Int × String)} (hI : DInv g a st)
    (hpq : st.pq = (k, cur) :: rest) (hcur : cur ∈ st.visited) :
    DInv g a { st with pq := rest } := by
  have hsub : ∀ e ∈ rest, e ∈ st.pq := by
    intro e he
    rw [hpq]
    exact List.mem_cons_of_mem _ he
  refine ⟨hI.gEq, hI.distdom, hI.distval, hI.startd, ?_, ?_, ?_, hI.visitedopt,
    hI.visitedfin, hI.frontier, ?_, hI.predok, hI.predord, hI.prednostart,
    hI.predtotal, hI.predsorted, hI.visnodup⟩
  · have := hI.pqsorted
    rw [hpq] at this
    exact (List.pairwise_cons.mp this).2
  · intro k' v' h
    exact hI.pqbound k' v' (hsub _ h)
  · intro v dv hv hdv hfin
    have := hI.pqcover v dv hv hdv hfin
    rw [hpq] at this
    rcases List.mem_cons.mp this with h | h
    · cases h
      exact absurd hcur hv
    · exact h
  · intro u hu du hdu k' v' h
    exact hI.pqmin u hu du hdu k' v' (hsub _ h)

theorem settle_start {g : Graph} {a : String} {st : DState} {k : Int}
    {cur : String} {rest : List (Int × String)} (hg : GHyp g) (hI : DInv g a st)
    (hpq : st.pq = (k, cur) :: rest) (hcur : cur ∉ st.visited) :
    FInv g a cur k st.visited { st with visited := cur :: st.visited, pq := rest } := by
  obtain ⟨hdc, hkfin, hopt, hrest⟩ := hI.pop_facts hg hpq hcur
  have hsub : ∀ e ∈ rest, e ∈ st.pq := by
    intro e he
    rw [hpq]
    exact List.mem_cons_of_mem _ he
  refine ⟨hI.gEq, hI.distdom, hI.distval, hI.startd, ?_, ?_, ?_, rfl, hdc, hkfin,
    ?_, ?_, ?_, ?_, ?_, hI.predok, ?_, hI.prednostart, hI.predtotal,
    hI.predsorted, List.Nodup.cons hcur hI.visnodup⟩
  · have := hI.pqsorted
    rw [hpq] at this
    exact (List.pairwise_cons.mp this).2
  · intro k' v' h
    exact hI.pqbound k' v' (hsub _ h)
  · intro v dv hv hdv hfin
    have hvold : v ∉ st.visited := fun h => hv (List.mem_cons_of_mem _ h)
    have hvcur : v ≠ cur := fun h => hv (h ▸ List.mem_cons_self _ _)
    have := hI.pqcover v dv hvold hdv hfin
    rw [hpq] at this
    rcases List.mem_cons.mp this with h | h
    · cases h
      exact absurd rfl hvcur
    · exact h
  · intro v hv dv hdv p c hw
    rcases List.mem_cons.mp hv with hv | hv
    · subst hv
      rw [hdc] at hdv
      cases hdv
      exact hopt p c hw
    · exact hI.visitedopt v hv dv hdv p c hw
  · intro v hv
    rcases List.mem_cons.mp hv with hv | hv
    · subst hv
      exact ⟨k, hdc, hkfin⟩
    · exact hI.visitedfin v hv
  · intro u hu row hrow v w hvw du dv hdu hdv
    exact hI.frontier u hu row hrow v w hvw du dv hdu hdv
  · intro u hu du hdu k' v' h
    rcases List.mem_cons.mp hu with hu | hu
    · subst hu
      rw [hdc] at hdu
      cases hdu
      exact hrest (k', v') h
    · exact hI.pqmin u hu du hdu k' v' (hsub _ h)
  · intro v hv dv hdv
    rcases List.mem_cons.mp hv with hv | hv
    · subst hv
      rw [hdc] at hdv
      cases hdv
      exact le_refl _
    · have := hI.pqmin v hv dv hdv k cur (by rw [hpq]; exact List.mem_cons_self _ _)
      exact this
  · intro u p' hp'
    obtain ⟨hp'vis, hord⟩ := hI.predord u p' hp'
    refine ⟨List.mem_cons_of_mem _ hp'vis, ?_⟩
    intro l1 l2 hdecomp
    cases l1 with
    | nil =>
      simp at hdecomp
      obtain ⟨hcu, hrest2⟩ := hdecomp
      rw [← hrest2]
      exact hp'vis
    | cons x l1' =>
      simp at hdecomp
      obtain ⟨hxcur, hdec2⟩ := hdecomp
      exact hord l1' l2 hdec2

theorem settle_end {g : Graph} {a cur : String} {dc : Int} {vOld : List String}
    {st : DState} {crow : Row} (hcrow : mlookup g cur = some crow)
    (hF : FInv g a cur dc vOld st)
    (hbound : ∀ e ∈ crow, ∀ dv', mlookup st.dist e.1 = some dv' → dv' ≤ dc + e.2) :
    DInv g a st := by
  refine ⟨hF.gEq, hF.distdom, hF.distval, hF.startd, hF.pqsorted, hF.pqbound,
    hF.pqcover, hF.visitedopt, hF.visitedfin, ?_, hF.pqmin, hF.predok, hF.predord,
    hF.prednostart, hF.predtotal, hF.predsorted, hF.visnodup⟩
  intro u hu row hrow v w hvw du dv hdu hdv
  rw [hF.visEq] at hu
  rcases List.mem_cons.mp hu with hu | hu
  · subst hu
    rw [hcrow] at hrow
    cases hrow
    rw [hF.distcur] at hdu
    cases hdu
    exact hbound (v, w) (mem_of_mlookup hvw) dv hdv
  · exact hF.frontierOld u hu row hrow v w hvw du dv hdu hdv

/-! ### Termination measure of the main loop -/

def sumDeg (g : Graph) (vis : List String) : Nat :=
  ((g.filter (fun e => decide (e.1 ∉ vis))).map (fun e => e.2.length)).sum

def dmeasure (g : Graph) (st : DState) : Nat :=
  st.pq.length + sumDeg g st.visited

theorem sumDeg_settle {g : Graph} {cur : String} {crow : Row} {vis : List String}
    (hs : MSorted g) (hcrow : mlookup g cur = some crow) (hcur : cur ∉ vis) :
    sumDeg g (cur :: vis) + crow.length = sumDeg g vis := by
  induction g with
  | nil => simp [mlookup] at hcrow
  | cons e gr ih =>
    rcases List.pairwise_cons.mp hs with ⟨hlt, htail⟩
    by_cases hecur : cur = e.1
    · have hrowe : crow = e.2 := by
        rw [mlookup, if_pos hecur] at hcrow
        cases hcrow
        rfl
      subst hrowe
      have h1 : ¬ (decide (e.1 ∉ cur :: vis) = true) := by
        simp [← hecur]
      have h2 : decide (e.1 ∉ vis) = true := by
        simp only [decide_eq_true_eq]
        rw [← hecur]
        exact hcur
      have htfilter : gr.filter (fun x => decide (x.1 ∉ cur :: vis)) =
          gr.filter (fun x => decide (x.1 ∉ vis)) := by
        apply List.filter_congr
        intro x hx
        have hxgt : e.1 < x.1 := hlt x hx
        have hxcur : ¬ x.1 = cur := by
          intro h
          rw [hecur] at h
          exact absurd (h ▸ hxgt) (lt_irrefl _)
        simp [List.mem_cons, hxcur]
      unfold sumDeg
      rw [List.filter_cons, List.filter_cons, if_neg h1, if_pos h2, htfilter]
      simp only [List.map_cons, List.sum_cons]
      omega
    · have hlook : mlookup gr cur = some crow := by
        rw [mlookup, if_neg hecur] at hcrow
        exact hcrow
      have hecur' : ¬ e.1 = cur := fun h => hecur h.symm
      have hsame : (decide (e.1 ∉ cur :: vis)) = (decide (e.1 ∉ vis)) := by
        simp [List.mem_cons, hecur']
      have ihr := ih htail hlook
      unfold sumDeg at ihr ⊢
      by_cases hein : decide (e.1 ∉ vis) = true
      · have hein' : decide (e.1 ∉ cur :: vis) = true := by
          rw [hsame]
          exact hein
        rw [List.filter_cons, List.filter_cons, if_pos hein', if_pos hein]
        simp only [List.map_cons, List.sum_cons]
        omega
      · have hein' : ¬ (decide (e.1 ∉ cur :: vis) = true) := by
          rw [hsame]
          exact hein
        rw [List.filter_cons, List.filter_cons, if_neg hein', if_neg hein]
        omega

theorem dijkstraLoop_succ_cons (fuel : Nat) (st : DState) (k : Int) (cur : String)
    (rest : List (Int × String)) (hpq : st.pq = (k, cur) :: rest) :
    dijkstraLoop (fuel + 1) st =
      if cur ∈ st.visited then dijkstraLoop fuel { st with pq := rest }
      else if (mlookup st.g cur).isSome then
        dijkstraLoop fuel ((getOrIns st.g cur []).1.foldl (relaxNeighbor cur)
          { st with visited := cur :: st.visited, pq := rest,
                    g := (getOrIns st.g cur []).2 })
      else dijkstraLoop fuel { st with visited := cur :: st.visited, pq := rest } := by
  rw [dijkstraLoop, hpq]

/-- The main loop, given enough fuel, drains the queue and preserves the
invariant. -/
theorem dijkstraLoop_drains {g : Graph} {a : String} (hg : GHyp g) :
    ∀ (fuel : Nat) (st : DState), DInv g a st → dmeasure g st ≤ fuel →
      DInv g a (dijkstraLoop fuel st) ∧ (dijkstraLoop fuel st).pq = [] := by
  intro fuel
  induction fuel with
  | zero =>
    intro st hI hm
    have hpq : st.pq = [] := by
      unfold dmeasure at hm
      have hlen : st.pq.length = 0 := by omega
      exact List.length_eq_zero.mp hlen
    exact ⟨hI, hpq⟩
  | succ fuel ih =>
    intro st hI hm
    cases hpq : st.pq with
    | nil =>
      rw [dijkstraLoop, hpq]
      exact ⟨hI, hpq⟩
    | cons head rest =>
      obtain ⟨k, cur⟩ := head
      rw [dijkstraLoop_succ_cons fuel st k cur rest hpq]
      by_cases hv : cur ∈ st.visited
      · rw [if_pos hv]
        apply ih
        · exact skip_preserves hI hpq hv
        · unfold dmeasure at hm ⊢
          rw [hpq] at hm
          simp only [List.length_cons] at hm
          have h1 : ({ st with pq := rest } : DState).pq.length = rest.length := rfl
          have h2 : sumDeg g ({ st with pq := rest } : DState).visited =
              sumDeg g st.visited := rfl
          rw [h1, h2]
          omega
      · rw [if_neg hv]
        have hmem : (k, cur) ∈ st.pq := by
          rw [hpq]
          exact List.mem_cons_self _ _
        have hdomcur : (mlookup g cur).isSome = true := by
          rcases hI.pqbound k cur hmem with ⟨dv, hdv, _, _⟩
          rw [← hI.distdom, hdv]
          rfl
        rcases Option.isSome_iff_exists.mp hdomcur with ⟨crow, hcrow⟩
        have hstg : mlookup st.g cur = some crow := by
          rw [hI.gEq]
          exact hcrow
        have hcond : (mlookup st.g cur).isSome = true := by
          rw [hstg]
          rfl
        rw [if_pos hcond, getOrIns_of_eq_some _ hstg]
        have hF0 : FInv g a cur k st.visited
            { st with visited := cur :: st.visited, pq := rest } :=
          settle_start hg hI hpq hv
        have hsub : ∀ e ∈ crow, mlookup crow e.1 = some e.2 := by
          intro e he
          cases e
          exact mlookup_of_mem (hg.rowsorted cur crow hcrow) he
        obtain ⟨hF2, hbound2, hmono2, hvis2, hlen2⟩ :=
          relaxAll_spec hg hcrow crow
            { st with visited := cur :: st.visited, pq := rest } hF0 hsub
        have hD2 : DInv g a (crow.foldl (relaxNeighbor cur)
            { st with visited := cur :: st.visited, pq := rest }) :=
          settle_end hcrow hF2 hbound2
        have hm2 : dmeasure g (crow.foldl (relaxNeighbor cur)
            { st with visited := cur :: st.visited, pq := rest }) ≤ fuel := by
          unfold dmeasure
          rw [hvis2]
          have hproj : sumDeg g
              ({ st with visited := cur :: st.visited, pq := rest } : DState).visited =
              sumDeg g (cur :: st.visited) := rfl
          rw [hproj]
          have hsd : sumDeg g (cur :: st.visited) + crow.length =
              sumDeg g st.visited := sumDeg_settle hg.gsorted hcrow hv
          unfold dmeasure at hm
          rw [hpq] at hm
          simp only [List.length_cons] at hm
          simp only at hlen2
          omega
        exact ih _ hD2 hm2

/-! ### The initial Dijkstra state -/

theorem initDist_foldl (g : Graph) : ∀ (d : List (String × Int)) (k : String),
    mlookup (g.foldl (fun d e => minsert e.1 INT_MAX d) d) k =
      if (mlookup g k).isSome = true then some INT_MAX else mlookup d k := by
  induction g with
  | nil =>
    intro d k
    simp [mlookup]
  | cons e gr ih =>
    intro d k
    rw [List.foldl_cons, ih]
    by_cases h2 : k = e.1
    · have hs : (mlookup (e :: gr) k).isSome = true := by
        rw [mlookup, if_pos h2]
        rfl
      rw [if_pos hs]
      by_cases h1 : (mlookup gr k).isSome = true
      · rw [if_pos h1]
      · rw [if_neg h1, mlookup_minsert, if_pos h2]
    · have hsame : mlookup (e :: gr) k = mlookup gr k := by
        rw [mlookup, if_neg h2]
      rw [hsame]
      by_cases h1 : (mlookup gr k).isSome = true
      · rw [if_pos h1, if_pos h1]
      · rw [if_neg h1, if_neg h1, mlookup_minsert, if_neg h2]

theorem initDist_dom (g : Graph) (k : String) :
    (mlookup (initDist g) k).isSome = (mlookup g k).isSome := by
  unfold initDist
  rw [initDist_foldl g [] k]
  by_cases h : (mlookup g k).isSome = true
  · rw [if_pos h, h]
    rfl
  · rw [if_neg h]
    have h' : (mlookup g k).isSome = false := by
      cases hh : (mlookup g k).isSome
      · rfl
      · exact absurd hh h
    rw [h']
    rfl

theorem initDist_some {g : Graph} {k : String} {dv : Int}
    (h : mlookup (initDist g) k = some dv) : dv = INT_MAX := by
  unfold initDist at h
  rw [initDist_foldl g [] k] at h
  by_cases h1 : (mlookup g k).isSome = true
  · rw [if_pos h1] at h
    cases h
    rfl
  · rw [if_neg h1] at h
    simp [mlookup] at h

/-- The loop invariant holds at the start of the Dijkstra run. -/
theorem dinv_init {g : Graph} {a : String} (ha : (mlookup g a).isSome = true) :
    DInv g a ⟨g, minsert a 0 (initDist g), [], [], [(0, a)]⟩ := by
  have hlook : ∀ k, mlookup (minsert a 0 (initDist g)) k =
      if k = a then some 0 else mlookup (initDist g) k := fun k =>
    mlookup_minsert a k 0 (initDist g)
  have hstartd : mlookup (minsert a 0 (initDist g)) a = some 0 := by
    rw [hlook, if_pos rfl]
  have hdom : ∀ k, (mlookup (minsert a 0 (initDist g)) k).isSome =
      (mlookup g k).isSome := by
    intro k
    rw [hlook]
    by_cases hk : k = a
    · rw [if_pos hk, hk, ha]
      rfl
    · rw [if_neg hk]
      exact initDist_dom g k
  have hdval : ∀ v dv, mlookup (minsert a 0 (initDist g)) v = some dv →
      0 ≤ dv ∧ dv ≤ INT_MAX ∧ (dv ≠ INT_MAX → ∃ p, WalkCost g a v p dv) := by
    intro v dv h
    rw [hlook] at h
    by_cases hva : v = a
    · rw [if_pos hva] at h
      cases h
      subst hva
      exact ⟨le_refl 0, by decide, fun _ => ⟨[v], WalkCost.single⟩⟩
    · rw [if_neg hva] at h
      have hmax := initDist_some h
      subst hmax
      exact ⟨by decide, le_refl _, fun hne => absurd rfl hne⟩
  have hcover : ∀ v dv, v ∉ ([] : List String) →
      mlookup (minsert a 0 (initDist g)) v = some dv → dv ≠ INT_MAX →
      (dv, v) ∈ ([(0, a)] : List (Int × String)) := by
    intro v dv _ h hfin
    rw [hlook] at h
    by_cases hva : v = a
    · rw [if_pos hva] at h
      cases h
      subst hva
      exact List.mem_singleton.mpr rfl
    · rw [if_neg hva] at h
      exact absurd (initDist_some h) hfin
  have hbound : ∀ k v, (k, v) ∈ ([(0, a)] : List (Int × String)) →
      ∃ dv, mlookup (minsert a 0 (initDist g)) v = some dv ∧ dv ≤ k ∧
        k < INT_MAX := by
    intro k v h
    simp at h
    obtain ⟨hk, hv⟩ := h
    subst hk
    subst hv
    exact ⟨0, hstartd, le_refl 0, by decide⟩
  have hptotal : ∀ v dv, mlookup (minsert a 0 (initDist g)) v = some dv →
      dv ≠ INT_MAX →
      v = a ∨ (mlookup ([] : List (String × String)) v).isSome = true := by
    intro v dv h hfin
    by_cases hva : v = a
    · exact Or.inl hva
    · rw [hlook, if_neg hva] at h
      exact absurd (initDist_some h) hfin
  refine ⟨rfl, hdom, hdval, hstartd, ?_, hbound, hcover, ?_, ?_, ?_, ?_, ?_, ?_,
    rfl, hptotal, ?_, ?_⟩
  · exact List.Pairwise.cons (fun x hx => absurd hx (List.not_mem_nil x))
      List.Pairwise.nil
  · intro v hv
    exact absurd hv (List.not_mem_nil v)
  · intro v hv
    exact absurd hv (List.not_mem_nil v)
  · intro u hu
    exact absurd hu (List.not_mem_nil u)
  · intro u hu
    exact absurd hu (List.not_mem_nil u)
  · intro u p' h
    exact absurd h (by simp [mlookup])
  · intro u p' h
    exact absurd h (by simp [mlookup])
  · exact List.Pairwise.nil
  · exact List.nodup_nil

theorem dmeasure_init (g : Graph) (a : String) :
    dmeasure g ⟨g, minsert a 0 (initDist g), [], [], [(0, a)]⟩ ≤ 1 + totalAdj g := by
  show ([(0, a)] : List (Int × String)).length + sumDeg g [] ≤ 1 + totalAdj g
  have h : sumDeg g [] = totalAdj g := by
    unfold sumDeg totalAdj
    have hf : g.filter (fun e => decide (e.1 ∉ ([] : List String))) = g := by
      apply List.filter_eq_self.mpr
      intro e he
      simp
    rw [hf]
  rw [h]
  simp

/-- With fuel `1 + totalAdj g` the main loop drains the queue and the
invariant holds at the end, from any registered source. -/
theorem dijkstra_end {g : Graph} {a : String} (hg : GHyp g)
    (ha : (mlookup g a).isSome = true) :
    DInv g a (dijkstraLoop (1 + totalAdj g)
      ⟨g, minsert a 0 (initDist g), [], [], [(0, a)]⟩) ∧
    (dijkstraLoop (1 + totalAdj g)
      ⟨g, minsert a 0 (initDist g), [], [], [(0, a)]⟩).pq = [] :=
  dijkstraLoop_drains hg (1 + totalAdj g) _ (dinv_init ha) (dmeasure_init g a)

/-! ### The drained state: every finite distance is settled and optimal -/

theorem end_visited {g : Graph} {a : String} {st : DState} (hI : DInv g a st)
    (hpq : st.pq = []) {v : String} {dv : Int}
    (hdv : mlookup st.dist v = some dv) (hfin : dv ≠ INT_MAX) :
    v ∈ st.visited := by
  by_contra hv
  have h := hI.pqcover v dv hv hdv hfin
  rw [hpq] at h
  exact absurd h (List.not_mem_nil _)

theorem end_opt {g : Graph} {a : String} {st : DState} (hg : GHyp g)
    (hI : DInv g a st) (hpq : st.pq = []) {v : String} {dv : Int}
    (hdv : mlookup st.dist v = some dv) :
    ∀ p c, WalkCost g a v p c → dv ≤ c := by
  intro p c hw
  by_cases hvv : v ∈ st.visited
  · exact hI.visitedopt v hvv dv hdv p c hw
  · rcases hI.cover hg v p c hw hvv with ⟨k', v', hmem, _⟩ | hmax
    · rw [hpq] at hmem
      exact absurd hmem (List.not_mem_nil _)
    · obtain ⟨h1, h2, _⟩ := hI.distval v dv hdv
      omega

/-! ### Path reconstruction -/

theorem reconLoop_succ_some {preds : List (String × String)} {start_ current : String}
    {p : String} (f : Nat) (path : List String)
    (h : mlookup preds current = some p) :
    reconLoop preds start_ (f + 1) current path =
      if p = start_ then (path ++ [current]) ++ [start_]
      else reconLoop preds start_ f p (path ++ [current]) := by
  rw [reconLoop, h]

theorem reconLoop_succ_none {preds : List (String × String)} {start_ current : String}
    (f : Nat) (path : List String) (h : mlookup preds current = none) :
    reconLoop preds start_ (f + 1) current path = path := by
  rw [reconLoop, h]

/-- Reconstruction follows the predecessor forest: from any settled `u ≠ a`
with a finite distance, `reconLoop` appends a chain of distinct settled
nodes ending in `a`, and the reversed chain is a walk from `a` to `u` whose
cost is exactly `u`'s tentative distance.  The induction is on the part of
the visited list settled before `u`. -/
theorem recon_spec {g : Graph} {a : String} {st : DState} (hI : DInv g a st) :
    ∀ (n : Nat) (l2 : List String), l2.length ≤ n →
    ∀ (u : String) (du : Int) (l1 : List String),
      st.visited = l1 ++ u :: l2 → mlookup st.dist u = some du → u ≠ a →
    ∃ chain : List String,
      List.Sublist chain (u :: l2) ∧
      (∀ x ∈ chain, (mlookup st.preds x).isSome = true) ∧
      1 ≤ chain.length ∧
      (∀ (acc : List String) (fuel : Nat), chain.length ≤ fuel →
        reconLoop st.preds a fuel u acc = acc ++ chain ++ [a]) ∧
      WalkCost g a u (chain ++ [a]).reverse du := by
  intro n
  induction n with
  | zero =>
    intro l2 hlen u du l1 hvis hdu hua
    have hl2 : l2 = [] := List.length_eq_zero.mp (Nat.le_zero.mp hlen)
    subst hl2
    have hvmem : u ∈ st.visited := mem_of_decomp hvis
    have hufin : du ≠ INT_MAX := by
      rcases hI.visitedfin u hvmem with ⟨dv, hdv, hfin⟩
      rw [hdu] at hdv
      cases hdv
      exact hfin
    rcases hI.predtotal u du hdu hufin with h | h
    · exact absurd h hua
    · rcases Option.isSome_iff_exists.mp h with ⟨p, hp⟩
      have hpl2 : p ∈ ([] : List String) := (hI.predord u p hp).2 l1 [] hvis
      exact absurd hpl2 (List.not_mem_nil p)
  | succ n ih =>
    intro l2 hlen u du l1 hvis hdu hua
    have hvmem : u ∈ st.visited := mem_of_decomp hvis
    have hufin : du ≠ INT_MAX := by
      rcases hI.visitedfin u hvmem with ⟨dv, hdv, hfin⟩
      rw [hdu] at hdv
      cases hdv
      exact hfin
    rcases hI.predtotal u du hdu hufin with h | h
    · exact absurd h hua
    rcases Option.isSome_iff_exists.mp h with ⟨p, hp⟩
    have hpl2 : p ∈ l2 := (hI.predord u p hp).2 l1 l2 hvis
    rcases hI.predok u p hp with ⟨row, w, du', dp, hrow, hwu, hdu', hdp, heq, hdufin'⟩
    rw [hdu] at hdu'
    cases hdu'
    have hedge : adjW g p u = some w := by
      unfold adjW
      rw [hrow]
      exact hwu
    by_cases hpa : p = a
    · rw [hpa] at hdp hedge
      rw [hI.startd] at hdp
      cases hdp
      refine ⟨[u], ?_, ?_, ?_, ?_, ?_⟩
      · exact List.Sublist.cons₂ u (List.nil_sublist l2)
      · intro x hx
        rcases List.mem_singleton.mp hx with rfl
        rw [hp]
        rfl
      · exact le_refl 1
      · intro acc fuel hfuel
        cases fuel with
        | zero => simp at hfuel
        | succ f =>
          rw [reconLoop_succ_some f acc hp, if_pos hpa]
      · have h0 : WalkCost g a u ([a] ++ [u]) (0 + w) :=
          WalkCost.snoc WalkCost.single hedge
        exact h0.cost_congr (by omega)
    · rcases List.append_of_mem hpl2 with ⟨l2a, l2b, hl2⟩
      subst hl2
      have hlenb : l2b.length ≤ n := by
        simp [List.length_append] at hlen
        omega
      have hvis' : st.visited = (l1 ++ u :: l2a) ++ p :: l2b := by
        rw [hvis]
        simp
      rcases ih l2b hlenb p dp (l1 ++ u :: l2a) hvis' hdp hpa with
        ⟨chainP, hsubP, hpredP, hlenP, hloopP, hwalkP⟩
      refine ⟨u :: chainP, ?_, ?_, ?_, ?_, ?_⟩
      · apply List.Sublist.cons₂
        exact hsubP.trans (List.sublist_append_right l2a (p :: l2b))
      · intro x hx
        rcases List.mem_cons.mp hx with rfl | hx
        · rw [hp]
          rfl
        · exact hpredP x hx
      · exact Nat.succ_le_succ (Nat.zero_le _)
      · intro acc fuel hfuel
        cases fuel with
        | zero =>
          have h1 : 1 ≤ (u :: chainP).length := Nat.succ_le_succ (Nat.zero_le _)
          omega
        | succ f =>
          rw [reconLoop_succ_some f acc hp, if_neg hpa]
          have hf : chainP.length ≤ f := by
            have hcl : (u :: chainP).length = chainP.length + 1 := rfl
            omega
          rw [hloopP (acc ++ [u]) f hf]
          simp
      · have hsnoc : WalkCost g a u ((chainP ++ [a]).reverse ++ [u]) (dp + w) :=
          WalkCost.snoc hwalkP hedge
        have hrev : ((u :: chainP) ++ [a]).reverse = (chainP ++ [a]).reverse ++ [u] := by
          simp
        rw [hrev]
        exact hsnoc.cost_congr (by omega)

/-! ### Computing `findShortestPath` through the invariant -/

theorem fsp_unknown_start {g : Graph} {a : String} (b : String)
    (ha : ¬ (mlookup (initDist g) a).isSome = true) :
    findShortestPath g a b = (g, []) := by
  simp only [findShortestPath]
  rw [if_neg ha]

theorem fsp_eq_of_some {g : Graph} {a b : String} {st : DState}
    (hst : dijkstraLoop (1 + totalAdj g)
      ⟨g, minsert a 0 (initDist g), [], [], [(0, a)]⟩ = st)
    (ha : (mlookup (initDist g) a).isSome = true) {de : Int}
    (hde : mlookup st.dist b = some de) (hfin : ¬ de = INT_MAX) :
    findShortestPath g a b =
      (if (reconLoop st.preds a (st.preds.length + 1) b []).reverse.head? = some a
       then (st.g, (reconLoop st.preds a (st.preds.length + 1) b []).reverse)
       else (st.g, [])) := by
  simp only [findShortestPath]
  rw [if_pos ha, hst]
  simp only [hde]
  rw [if_neg hfin]

theorem fsp_empty_of_dist_none {g : Graph} {a b : String} {st : DState}
    (hst : dijkstraLoop (1 + totalAdj g)
      ⟨g, minsert a 0 (initDist g), [], [], [(0, a)]⟩ = st)
    (ha : (mlookup (initDist g) a).isSome = true)
    (hde : mlookup st.dist b = none) :
    findShortestPath g a b = (st.g, []) := by
  simp only [findShortestPath]
  rw [if_pos ha, hst]
  simp only [hde]

theorem fsp_empty_of_intmax {g : Graph} {a b : String} {st : DState}
    (hst : dijkstraLoop (1 + totalAdj g)
      ⟨g, minsert a 0 (initDist g), [], [], [(0, a)]⟩ = st)
    (ha : (mlookup (initDist g) a).isSome = true)
    (hde : mlookup st.dist b = some INT_MAX) :
    findShortestPath g a b = (st.g, []) := by
  simp only [findShortestPath]
  rw [if_pos ha, hst]
  simp only [hde]
  rw [if_pos trivial]

/-- The self-query: the code returns the empty path, because the start has
no predecessor and the final head check then fails. -/
theorem fsp_self {g : Graph} (hg : GHyp g) (a : String) :
    (findShortestPath g a a).2 = [] := by
  by_cases ha : (mlookup (initDist g) a).isSome = true
  · have hag : (mlookup g a).isSome = true := by
      rw [← initDist_dom g a]
      exact ha
    obtain ⟨st, hst⟩ : ∃ st, dijkstraLoop (1 + totalAdj g)
        ⟨g, minsert a 0 (initDist g), [], [], [(0, a)]⟩ = st := ⟨_, rfl⟩
    obtain ⟨hI, hpq⟩ := hst ▸ dijkstra_end hg hag
    rw [fsp_eq_of_some hst ha hI.startd (by decide)]
    rw [reconLoop_succ_none _ [] hI.prednostart]
    rw [if_neg (by simp)]
  · rw [fsp_unknown_start a ha]

/-- The dichotomy of a shortest-path query between distinct endpoints with a
registered source: either the result is empty and every walk between the
endpoints costs at least `INT_MAX`, or the result is a walk whose cost `d`
is what `calculatePathDistance` reports and is minimal among all walks. -/
theorem findShortestPath_full {g : Graph} (hg : GHyp g) (a b : String)
    (hba : b ≠ a) :
    ((findShortestPath g a b).2 = [] ∧ ∀ q c, WalkCost g a b q c → INT_MAX ≤ c) ∨
    (∃ d : Int, (findShortestPath g a b).2 ≠ [] ∧
      WalkCost g a b (findShortestPath g a b).2 d ∧
      calculatePathDistance g (findShortestPath g a b).2 = (g, d) ∧
      0 ≤ d ∧ d < INT_MAX ∧ ∀ q c, WalkCost g a b q c → d ≤ c) := by
  by_cases ha : (mlookup (initDist g) a).isSome = true
  · have hag : (mlookup g a).isSome = true := by
      rw [← initDist_dom g a]
      exact ha
    obtain ⟨st, hst⟩ : ∃ st, dijkstraLoop (1 + totalAdj g)
        ⟨g, minsert a 0 (initDist g), [], [], [(0, a)]⟩ = st := ⟨_, rfl⟩
    obtain ⟨hI, hpq⟩ := hst ▸ dijkstra_end hg hag
    cases hdb : mlookup st.dist b with
    | none =>
      left
      constructor
      · rw [fsp_empty_of_dist_none hst ha hdb]
      · intro q c hw
        exfalso
        cases hw with
        | single => exact hba rfl
        | snoc hwalk hedge =>
          have hbg : (mlookup g b).isSome = true := adjW_closed hg hedge
          have hd := hI.distdom b
          rw [hdb, hbg] at hd
          simp at hd
    | some de =>
      by_cases hfin : de = INT_MAX
      · left
        subst hfin
        constructor
        · rw [fsp_empty_of_intmax hst ha hdb]
        · intro q c hw
          exact end_opt hg hI hpq hdb q c hw
      · right
        have hbvis : b ∈ st.visited := end_visited hI hpq hdb hfin
        rcases List.append_of_mem hbvis with ⟨l1, l2, hvis⟩
        rcases recon_spec hI l2.length l2 (le_refl _) b de l1 hvis hdb hba
          with ⟨chain, hsubl, hpredsome, hlen1, hloop, hwalk⟩
        have hfuel : chain.length ≤ st.preds.length + 1 := by
          have hvnodup : (b :: l2).Nodup := by
            have hnd := hI.visnodup
            rw [hvis] at hnd
            exact hnd.of_append_right
          have hnodup : chain.Nodup := List.Nodup.sublist hsubl hvnodup
          have hsubset : ∀ x ∈ chain, x ∈ st.preds.map Prod.fst := by
            intro x hx
            exact (mlookup_isSome_iff st.preds x).mp (hpredsome x hx)
          have hsp : List.Subperm chain (st.preds.map Prod.fst) :=
            List.subperm_of_subset hnodup (fun x hx => hsubset x hx)
          have hll := hsp.length_le
          rw [List.length_map] at hll
          omega
        have hloopEq := hloop [] (st.preds.length + 1) hfuel
        have hpath : (reconLoop st.preds a (st.preds.length + 1) b []).reverse =
            (chain ++ [a]).reverse := by
          rw [hloopEq]
          simp
        have hhead : ((chain ++ [a]).reverse).head? = some a := by
          simp
        have hfsp := fsp_eq_of_some hst ha hdb hfin
        rw [hpath, hhead] at hfsp
        rw [if_pos rfl] at hfsp
        refine ⟨de, ?_, ?_, ?_, ?_, ?_, ?_⟩
        · rw [hfsp]
          simp
        · rw [hfsp]
          exact hwalk
        · rw [hfsp]
          exact calc_of_walk hwalk
        · obtain ⟨h0, _, _⟩ := hI.distval b de hdb
          exact h0
        · obtain ⟨_, h1, _⟩ := hI.distval b de hdb
          omega
        · exact end_opt hg hI hpq hdb
  · left
    constructor
    · rw [fsp_unknown_start b ha]
    · intro q c hw
      exfalso
      rcases hw.front with ⟨hab, _, _⟩ | ⟨x, q', w, c2, hp, he, _, _⟩
      · exact hba hab.symm
      · rcases adjW_some_elim he with ⟨row, hrow, _⟩
        apply ha
        rw [initDist_dom g a, hrow]
        rfl

/-! ### Claims C2 and C7 -/

theorem ghyp_of {g : Graph} (hwf : GraphWF g) (hnn : NonnegG g) : GHyp g :=
  ⟨hwf.gsorted, hwf.rowsorted, hwf.closed, hnn⟩

/-- C2: whenever `findShortestPath` returns a non-empty path,
`calculatePathDistance` of that path reports exactly the distance the
engine computed: the cost of the returned walk, which is minimal among the
costs of all walks between the two endpoints.  The graph hypotheses are the
reachable-state shape invariant and the documented non-negative route
domain. -/
theorem C2_path_distance_matches_engine_distance (g : Graph) (a b : String)
    (hwf : GraphWF g) (hnn : NonnegG g)
    (hne : (findShortestPath g a b).2 ≠ []) :
    ∃ d : Int,
      calculatePathDistance g (findShortestPath g a b).2 = (g, d) ∧
      WalkCost g a b (findShortestPath g a b).2 d ∧
      (∀ q c, WalkCost g a b q c → d ≤ c) := by
  have hg : GHyp g := ghyp_of hwf hnn
  by_cases hab : b = a
  · subst hab
    exact absurd (fsp_self hg b) hne
  · rcases findShortestPath_full hg a b hab with ⟨hemp, _⟩ |
      ⟨d, _, hw, hc, _, _, hmin⟩
    · exact absurd hemp hne
    · exact ⟨d, hc, hw, hmin⟩

def demoOps : List Op :=
  [Op.addLocation "A", Op.addLocation "B", Op.addRoute "A" "B" 2]

def demoG : Graph := (run initState demoOps).deliveryGraph

theorem nonnegG_init : NonnegG initState.deliveryGraph := by
  intro u row h
  simp [mlookup] at h

theorem demoG_wf : GraphWF demoG :=
  run_graphWF demoOps initState graphWF_empty

theorem demoG_nonneg : NonnegG demoG :=
  run_nonneg demoOps initState nonnegG_init (by decide)

theorem C2_witness :
    (findShortestPath demoG "A" "B").2 ≠ [] ∧
    ∃ d : Int,
      calculatePathDistance demoG (findShortestPath demoG "A" "B").2 = (demoG, d) ∧
      WalkCost demoG "A" "B" (findShortestPath demoG "A" "B").2 d ∧
      (∀ q c, WalkCost demoG "A" "B" q c → d ≤ c) :=
  ⟨by decide, C2_path_distance_matches_engine_distance demoG "A" "B"
    demoG_wf demoG_nonneg (by decide)⟩

/-- The distance the engine reports for a pair of locations: the
`calculatePathDistance` of the path `findShortestPath` returns, exactly the
composition `optimizeDeliveryRoute` performs for each leg. -/
def spDist (g : Graph) (a b : String) : Int :=
  (calculatePathDistance g (findShortestPath g a b).2).2

/-- C7: the shortest-path distance is symmetric in its endpoints, over the
reachable-state shape invariant (which includes edge symmetry) and the
documented non-negative route domain. -/
theorem C7_shortest_distance_symmetric (g : Graph) (a b : String)
    (hwf : GraphWF g) (hnn : NonnegG g) :
    spDist g a b = spDist g b a := by
  have hg : GHyp g := ghyp_of hwf hnn
  by_cases hab : a = b
  · subst hab
    rfl
  · have hba : b ≠ a := fun h => hab h.symm
    rcases findShortestPath_full hg a b hba with ⟨hemp1, hbig1⟩ |
      ⟨d1, hne1, hw1, hc1, h01, hlt1, hmin1⟩ <;>
      rcases findShortestPath_full hg b a hab with ⟨hemp2, hbig2⟩ |
        ⟨d2, hne2, hw2, hc2, h02, hlt2, hmin2⟩
    · unfold spDist
      rw [hemp1, hemp2]
    · exfalso
      have hbig := hbig1 _ _ (hw2.reverse hwf.symm)
      omega
    · exfalso
      have hbig := hbig2 _ _ (hw1.reverse hwf.symm)
      omega
    · have hle1 : d1 ≤ d2 := hmin1 _ _ (hw2.reverse hwf.symm)
      have hle2 : d2 ≤ d1 := hmin2 _ _ (hw1.reverse hwf.symm)
      unfold spDist
      rw [hc1, hc2, le_antisymm hle1 hle2]

theorem C7_witness : spDist demoG "A" "B" = spDist demoG "B" "A" :=
  C7_shortest_distance_symmetric demoG "A" "B" demoG_wf demoG_nonneg
